import Mathlib

/-!
# Verification of the ingredient parser of `src/app.py`

This file is a shallow embedding of the two pure text functions of the
repository: `parse_ingredient` and `format_yields`.  Strings are modelled as
their lists of characters (Python code points).  The four regular expressions
of `parse_ingredient` are embedded as deterministic scanning functions; each
simplification away from a general backtracking engine is justified in a
comment at the definition it concerns.  Whitespace (`\s`, `str.strip`) is
modelled by the ASCII whitespace characters and case folding by ASCII
`Char.toLower`; the claims under study involve only ASCII input.
-/

namespace RecipeScraper

/-- ASCII whitespace, the characters matched by Python's `\s` on ASCII text
and stripped by `str.strip()`. -/
def pySpace (c : Char) : Bool :=
  c = ' ' || c = '\t' || c = '\n' || c = '\r' || c = '\x0b' || c = '\x0c'

/-- The character class `[0-9\/\-.,]` of the numeral part of the quantity
patterns. -/
def numChar (c : Char) : Bool :=
  c.isDigit || c = '/' || c = '-' || c = '.' || c = ','

/-- Case folding of one character (ASCII, as in `re.IGNORECASE` on ASCII). -/
def lowerC (c : Char) : Char := c.toLower

/-- Case folding of a word. -/
def lowers (l : List Char) : List Char := l.map lowerC

/-- `str.strip()` from the left. -/
def lstrip (l : List Char) : List Char := l.dropWhile pySpace

/-- `str.strip()` from the right. -/
def rstrip (l : List Char) : List Char := (l.reverse.dropWhile pySpace).reverse

/-- Python `str.strip()`. -/
def pyStrip (l : List Char) : List Char := rstrip (lstrip l)

/-- The words generated by the `units` alternation of `parse_ingredient`,
in the preference order of the regex engine: alternatives left to right and,
inside one alternative, greedy options (longer variants) first.  A character
class such as `[oi]` contributes one concrete word per choice; two words of
the same alternative are never prefixes of one another at the same end
position, so listing them in this order realises the engine's preference. -/
def unitVariants : List (List Char) :=
  ["cups", "cup", "tablespoons", "tablespoon", "tbsps", "tbsp",
   "teaspoons", "teaspoon", "tsps", "tsp", "grams", "gram",
   "g", "kg", "mg", "ml", "l", "cl", "dl", "oz", "lbs", "lb",
   "pounds", "pound", "tazza", "tazze",
   "cucchiaio", "cucchiaii", "cucchiai", "cucchiaini", "cucchiain",
   "pizzico", "pizzici", "q.b.", "q.b", "qb.", "qb",
   "pezzo", "pezzi", "fetta", "fette",
   "spicchio", "spicchii", "spicchi", "foglie", "fogli",
   "rametto", "rametti", "ramett",
   "manciata", "manciate", "mazzo", "mazzi",
   "unità", "unitá", "pz.", "pz", "n.", "n",
   "cloves", "clove", "pinches", "pinche", "pieces", "piece",
   "slices", "slice"].map String.data

/-- The words generated by the `special_units` alternation. -/
def specialVariants : List (List Char) :=
  ["q.b.", "q.b", "qb.", "qb", "pizzico", "pizzici",
   "manciata", "manciate", "mazzo", "mazzi"].map String.data

/-- Exact (case-folded) membership in the unit vocabulary. -/
def isUnitWord (l : List Char) : Bool := unitVariants.contains l

/-- Does `l` match `[0-9\/\-.,]+\s*(?:units)` exactly (anchored on both
sides)?  The regex subterm is deterministic here: every unit word begins with
a letter, so a shorter (backtracked) numeral run would leave a numeral
character in front of the unit, and a shorter whitespace run would leave a
whitespace character there; both are impossible.  Hence the maximal numeral
run followed by the maximal whitespace run is the only viable split. -/
def isNumUnit (l : List Char) : Bool :=
  let p := l.takeWhile numChar
  !p.isEmpty && isUnitWord (lowers ((l.drop p.length).dropWhile pySpace))

/-- Does `l` match `(?:special_units)` exactly? -/
def isSpecialQ (l : List Char) : Bool := specialVariants.contains (lowers l)

/-- The suffix of `t` after position `i` with its leading whitespace run
removed: the text seen by group 2 after `\s+` has consumed greedily. -/
def wsTail (t : List Char) (i : Nat) : List Char := (t.drop i).dropWhile pySpace

/-- Is the head of `l` a whitespace character? -/
def headIsWs (l : List Char) : Bool :=
  match l with
  | c :: _ => pySpace c
  | [] => false

/-- Is `i` a viable split position for `^(.+?)\s+(G2)$` with group-2 test
`o`?  Group 1 (`t.take i`) must be nonempty and contain no newline (`.`
does not match `\n`), position `i` must start the `\s+` run, and the rest of
`t` after that run must satisfy `o`.  Only the maximal whitespace run needs
to be tried: both group-2 languages begin with a non-whitespace character. -/
def okSplitAt (o : List Char → Bool) (t : List Char) (i : Nat) : Bool :=
  decide (0 < i) && !(t.take i).contains '\n' && headIsWs (t.drop i) &&
    o (wsTail t i)

/-- First index in `[start, start+fuel)` satisfying `p`. -/
def firstIdx (p : Nat → Bool) : Nat → Nat → Option Nat
  | _, 0 => none
  | i, n + 1 => if p i then some i else firstIdx p (i + 1) n

/-- The match of `^(.+?)\s+([0-9\/\-.,]+\s*(?:units))$` on `t`, as the pair
(group 1, group 2).  The lazy `(.+?)` makes the engine return the smallest
viable split position. -/
def match_end (t : List Char) : Option (List Char × List Char) :=
  (firstIdx (okSplitAt isNumUnit t) 0 t.length).map fun i => (t.take i, wsTail t i)

/-- The match of `^(.+?)\s+(special_units)$` on `t`. -/
def special_end (t : List Char) : Option (List Char × List Char) :=
  (firstIdx (okSplitAt isSpecialQ t) 0 t.length).map fun i => (t.take i, wsTail t i)

/-- The behaviour of `(?:di\s+)?(.+)$` on the text `rest` that follows the
`\s+` after the unit (so `rest` begins with a non-whitespace character on a
stripped input).  Greedily, `di` plus a whitespace run is consumed when
present and the rest must then be a nonempty newline-free tail (`.` does not
cross `\n`; on stripped input `$` is the end of the string).  If that tail
fails, backtracking only moves whitespace characters in front of the failing
tail, so the engine falls back to not taking `di` at all, with the whole of
`rest` as group 2. -/
def diSplit (rest : List Char) : Option (List Char) :=
  if lowers (rest.take 2) = ['d', 'i'] ∧ headIsWs (rest.drop 2) then
    let rest2 := (rest.drop 2).dropWhile pySpace
    if rest2 ≠ [] ∧ rest2.contains '\n' = false then some rest2
    else if rest ≠ [] ∧ rest.contains '\n' = false then some rest
    else none
  else if rest ≠ [] ∧ rest.contains '\n' = false then some rest
  else none

/-- Does the unit word `v` match at the start of `t`, followed by at least
one whitespace character (the mandatory `\s+`)? -/
def variantAt (t : List Char) (v : List Char) : Bool :=
  lowers (t.take v.length) == v && headIsWs (t.drop v.length)

/-- The match of `^(units)\s+(?:di\s+)?(.+)$` on `t`, as (group 1, group 2).
Group 1 keeps the original casing of the text (`t.take v.length`).  Because
no unit word contains whitespace and the word must be followed by
whitespace, at most one end position can host a unit word, so trying the
variants in preference order and keeping the first full match is exactly the
engine's behaviour. -/
def matchUnitStart (t : List Char) : Option (List Char × List Char) :=
  unitVariants.findSome? fun v =>
    if variantAt t v then
      (diSplit ((t.drop v.length).dropWhile pySpace)).map
        fun g2 => (t.take v.length, g2)
    else none

/-- The match of `^([0-9\/\-.,]+\s*(?:units)?)\s+(?:di\s+)?(.+)$` on `t`.
The numeral run and the following whitespace run are forced maximal (a unit
word never starts with a numeral or whitespace character, and `\s+` needs a
whitespace character).  With a unit word present, group 1 is
`numerals ++ whitespace ++ unit`.  With no unit word the engine backtracks
`\s*` by one character so that `\s+` can match; group 1 is then the numeral
run plus all but one character of the whitespace run, which strips to the
numeral run alone, returned here directly (the caller strips group 1, see
`parse_ingredient`). -/
def matchNumStart (t : List Char) : Option (List Char × List Char) :=
  let p := t.takeWhile numChar
  if p.isEmpty then none
  else
    let afterP := t.drop p.length
    let w := afterP.takeWhile pySpace
    let afterW := afterP.drop w.length
    match unitVariants.findSome? (fun v =>
      if variantAt afterW v then
        (diSplit ((afterW.drop v.length).dropWhile pySpace)).map
          fun g2 => (p ++ w ++ afterW.take v.length, g2)
      else none) with
    | some r => some r
    | none =>
      if w.isEmpty then none
      else (diSplit afterW).map fun g2 => (p, g2)

/-- The result record of `parse_ingredient`. -/
structure ParsedIngredient where
  quantity : String
  name : String
deriving DecidableEq, Repr

/-- One pattern branch of `parse_ingredient`: strip both groups and accept
when `name and len(name) > 2`. -/
def tryBranch (q name : List Char) : Option ParsedIngredient :=
  if name ≠ [] ∧ 2 < name.length then some ⟨String.mk q, String.mk name⟩
  else none

/-- A branch whose name is group 1 and quantity group 2 (patterns 1 and 2,
quantity at the end). -/
def branchEnd (m : Option (List Char × List Char)) : Option ParsedIngredient :=
  m.bind fun p => tryBranch (pyStrip p.2) (pyStrip p.1)

/-- A branch whose quantity is group 1 and name group 2 (patterns 3 and 4,
quantity at the start). -/
def branchStart (m : Option (List Char × List Char)) : Option ParsedIngredient :=
  m.bind fun p => tryBranch (pyStrip p.1) (pyStrip p.2)

/-- The two end-anchored patterns, in source order. -/
def endResult (t : List Char) : Option ParsedIngredient :=
  match branchEnd (match_end t) with
  | some r => some r
  | none => branchEnd (special_end t)

/-- The two start-anchored patterns, in source order. -/
def startResult (t : List Char) : Option ParsedIngredient :=
  match branchStart (matchUnitStart t) with
  | some r => some r
  | none => branchStart (matchNumStart t)

/-- The pattern cascade of `parse_ingredient` on the stripped nonempty text:
four patterns in priority order, each guarded, then the fallback. -/
def parseIngredientText (t : List Char) : ParsedIngredient :=
  match endResult t with
  | some r => r
  | none =>
    match startResult t with
    | some r => r
    | none => ⟨"", String.mk t⟩

/-- A Python value, as far as the two functions under study discriminate
them: `None`, a string, an integer, a boolean. -/
inductive PyVal where
  | vNone
  | vStr (s : String)
  | vInt (n : Int)
  | vBool (b : Bool)
deriving DecidableEq, Repr

/-- Python truthiness of a `PyVal`. -/
def truthy (v : PyVal) : Bool :=
  match v with
  | .vNone => false
  | .vStr s => !(s == "")
  | .vInt n => !(n == 0)
  | .vBool b => b

/-- Is the value a `str`? -/
def isStr (v : PyVal) : Bool :=
  match v with
  | .vStr _ => true
  | _ => false

/-- Python `str()` coercion. -/
def pyStr (v : PyVal) : String :=
  match v with
  | .vNone => "None"
  | .vStr s => s
  | .vInt n => toString n
  | .vBool b => if b then "True" else "False"

/-- `parse_ingredient` of `src/app.py`: reject non-strings and falsy values,
strip, reject emptiness, then run the pattern cascade. -/
def parse_ingredient (v : PyVal) : ParsedIngredient :=
  if truthy v = false ∨ isStr v = false then ⟨"", ""⟩
  else
    match v with
    | .vStr s =>
      let t := pyStrip s.data
      if t = [] then ⟨"", ""⟩ else parseIngredientText t
    | _ => ⟨"", ""⟩

/-- `re.search(r'(\d+)', text)`: the first maximal run of decimal digits. -/
def firstDigitRun : List Char → Option (List Char)
  | [] => none
  | c :: cs =>
    if c.isDigit then some ((c :: cs).takeWhile Char.isDigit)
    else firstDigitRun cs

/-- `format_yields` of `src/app.py`. -/
def format_yields (v : PyVal) : String :=
  if truthy v = false ∨ v = .vStr "N/A" then "N/A"
  else
    match firstDigitRun (pyStrip (pyStr v).data) with
    | some run => String.mk run
    | none => "N/A"

/-- The characters of `l` that are not whitespace, in order. -/
def nonWsChars (l : List Char) : List Char := l.filter fun c => !pySpace c

/-- The last whitespace-separated token of `l` (empty when `l` ends in
whitespace). -/
def lastToken (l : List Char) : List Char :=
  (l.reverse.takeWhile fun c => !pySpace c).reverse

/-- The trimmed input as the parser sees it: the stripped text for a string
argument, the empty string otherwise. -/
def trimmedInput (v : PyVal) : String :=
  match v with
  | .vStr s => String.mk (pyStrip s.data)
  | _ => ""

end RecipeScraper

namespace RecipeScraper

/-! ### Basic character facts -/

theorem pySpace_iff {c : Char} :
    pySpace c = true ↔
      c = ' ' ∨ c = '\t' ∨ c = '\n' ∨ c = '\r' ∨ c = '\x0b' ∨ c = '\x0c' := by
  simp [pySpace, or_assoc]

theorem lowerC_of_pySpace {c : Char} (h : pySpace c = true) : lowerC c = c := by
  rw [pySpace_iff] at h
  rcases h with rfl | rfl | rfl | rfl | rfl | rfl <;> rfl

theorem toNat_le_of_isDigit {c : Char} (h : c.isDigit = true) : c.toNat ≤ 57 := by
  simp only [Char.isDigit, Bool.and_eq_true, decide_eq_true_eq] at h
  exact UInt32.toNat_le_of_le (by decide) h.2

theorem lowerC_of_toNat_lt {c : Char} (h : c.toNat < 65) : lowerC c = c := by
  unfold lowerC Char.toLower
  exact if_neg fun hc => by omega

theorem lowerC_of_numChar {c : Char} (h : numChar c = true) : lowerC c = c := by
  simp only [numChar, Bool.or_eq_true, decide_eq_true_eq] at h
  rcases h with (((hd | rfl) | rfl) | rfl) | rfl
  · exact lowerC_of_toNat_lt (Nat.lt_of_le_of_lt (toNat_le_of_isDigit hd) (by omega))
  · rfl
  · rfl
  · rfl
  · rfl

theorem pySpace_eq_false_of_numChar {c : Char} (h : numChar c = true) :
    pySpace c = false := by
  cases hps : pySpace c
  · rfl
  · rw [pySpace_iff] at hps
    rcases hps with rfl | rfl | rfl | rfl | rfl | rfl <;> exact absurd h (by decide)

/-! ### Vocabulary facts, by evaluation over the finite word lists -/

theorem unitVariants_ws_free : ∀ v ∈ unitVariants, ∀ c ∈ v, pySpace c = false := by
  decide

theorem unitVariants_have_letter :
    ∀ v ∈ unitVariants, ∃ c ∈ v, numChar c = false ∧ pySpace c = false := by
  decide

theorem specialVariants_ws_free :
    ∀ v ∈ specialVariants, ∀ c ∈ v, pySpace c = false := by
  decide

theorem specialVariants_head_not_num :
    ∀ v ∈ specialVariants, (v.head?.all fun c => !numChar c) = true := by
  decide


/-! ### Strings as character lists -/

theorem data_mk (l : List Char) : (String.mk l).data = l := rfl

theorem length_mk (l : List Char) : (String.mk l).length = l.length := rfl

theorem mk_eq_mk_iff {l l' : List Char} : String.mk l = String.mk l' ↔ l = l' :=
  ⟨fun h => congrArg String.data h, fun h => congrArg String.mk h⟩

theorem mk_eq_empty_iff {l : List Char} : String.mk l = "" ↔ l = [] :=
  mk_eq_mk_iff

/-! ### Heads, last elements and `dropWhile` -/

theorem head?_append_left {α : Type} {l₁ l₂ : List α} (h : l₁ ≠ []) :
    (l₁ ++ l₂).head? = l₁.head? := by
  cases l₁ with
  | nil => exact absurd rfl h
  | cons a t => rfl

theorem getLast?_append_left {α : Type} {l₁ l₂ : List α} (h : l₂ ≠ []) :
    (l₁ ++ l₂).getLast? = l₂.getLast? := by
  rw [List.getLast?_append]
  cases hl : l₂.getLast? with
  | none => exact absurd (List.getLast?_eq_none_iff.mp hl) h
  | some c => rfl

theorem lstrip_head_not {l : List Char} {c : Char}
    (h : (lstrip l).head? = some c) : pySpace c = false := by
  have hd := List.head?_dropWhile_not pySpace l
  unfold lstrip at h
  rw [h] at hd
  exact hd

theorem rstrip_getLast_not {l : List Char} {c : Char}
    (h : (rstrip l).getLast? = some c) : pySpace c = false := by
  unfold rstrip at h
  rw [List.getLast?_reverse] at h
  have hd := List.head?_dropWhile_not pySpace l.reverse
  rw [h] at hd
  exact hd

theorem rstrip_decomp (l : List Char) :
    ∃ z, l = rstrip l ++ z ∧ ∀ c ∈ z, pySpace c = true := by
  refine ⟨(l.reverse.takeWhile pySpace).reverse, ?_, ?_⟩
  · conv_lhs => rw [← l.reverse_reverse,
      ← List.takeWhile_append_dropWhile (p := pySpace) (l := l.reverse),
      List.reverse_append]
    rfl
  · intro c hc
    rw [List.mem_reverse] at hc
    exact List.mem_takeWhile_imp hc

theorem lstrip_eq_self {l : List Char}
    (h : ∀ c, l.head? = some c → pySpace c = false) : lstrip l = l := by
  cases l with
  | nil => rfl
  | cons a t =>
    unfold lstrip
    rw [List.dropWhile_cons, if_neg]
    simp [h a rfl]

theorem rstrip_eq_self {l : List Char}
    (h : ∀ c, l.getLast? = some c → pySpace c = false) : rstrip l = l := by
  unfold rstrip
  have : l.reverse.dropWhile pySpace = l.reverse := by
    cases hr : l.reverse with
    | nil => rfl
    | cons a t =>
      rw [List.dropWhile_cons, if_neg]
      have ha : l.getLast? = some a := by
        rw [← List.head?_reverse, hr]; rfl
      simp [h a ha]
  rw [this, List.reverse_reverse]

theorem pyStrip_getLast_not {l : List Char} {c : Char}
    (h : (pyStrip l).getLast? = some c) : pySpace c = false :=
  rstrip_getLast_not h

theorem pyStrip_head_not {l : List Char} {c : Char}
    (h : (pyStrip l).head? = some c) : pySpace c = false := by
  unfold pyStrip at h
  obtain ⟨z, hz, _⟩ := rstrip_decomp (lstrip l)
  by_cases hr : rstrip (lstrip l) = []
  · rw [hr] at h; exact absurd h (by simp)
  · apply lstrip_head_not (l := l)
    rw [hz, head?_append_left hr]
    exact h

theorem pyStrip_eq_self {l : List Char}
    (h1 : ∀ c, l.head? = some c → pySpace c = false)
    (h2 : ∀ c, l.getLast? = some c → pySpace c = false) : pyStrip l = l := by
  unfold pyStrip
  rw [lstrip_eq_self h1, rstrip_eq_self h2]

theorem pyStrip_idem (l : List Char) : pyStrip (pyStrip l) = pyStrip l :=
  pyStrip_eq_self (fun _ h => pyStrip_head_not h) (fun _ h => pyStrip_getLast_not h)

theorem nonWsChars_append (l₁ l₂ : List Char) :
    nonWsChars (l₁ ++ l₂) = nonWsChars l₁ ++ nonWsChars l₂ := by
  unfold nonWsChars
  exact List.filter_append _ _

theorem nonWsChars_eq_nil_of_ws {l : List Char} (h : ∀ c ∈ l, pySpace c = true) :
    nonWsChars l = [] := by
  rw [nonWsChars, List.filter_eq_nil_iff]
  intro a ha
  simp [h a ha]

theorem nonWs_lstrip (l : List Char) : nonWsChars (lstrip l) = nonWsChars l := by
  conv_rhs => rw [← List.takeWhile_append_dropWhile (p := pySpace) (l := l)]
  rw [nonWsChars_append,
    nonWsChars_eq_nil_of_ws (fun c hc => List.mem_takeWhile_imp hc), List.nil_append]
  rfl

theorem nonWs_rstrip (l : List Char) : nonWsChars (rstrip l) = nonWsChars l := by
  obtain ⟨z, hz, hws⟩ := rstrip_decomp l
  conv_rhs => rw [hz]
  rw [nonWsChars_append, nonWsChars_eq_nil_of_ws hws, List.append_nil]

theorem nonWs_pyStrip (l : List Char) : nonWsChars (pyStrip l) = nonWsChars l := by
  rw [pyStrip, nonWs_rstrip, nonWs_lstrip]

theorem pyStrip_ne_nil {l : List Char} {c : Char} (hh : l.head? = some c)
    (hc : pySpace c = false) : pyStrip l ≠ [] := by
  unfold pyStrip
  rw [lstrip_eq_self (fun d hd => by rw [hh] at hd; cases hd; exact hc)]
  intro hr
  have : ∀ d ∈ l.reverse, pySpace d = true := by
    have : l.reverse.dropWhile pySpace = [] := by
      have := congrArg List.reverse hr
      rw [rstrip, List.reverse_reverse] at this
      simpa using this
    exact fun d hd => List.dropWhile_eq_nil_iff.mp this d hd
  cases l with
  | nil => exact absurd hh (by simp)
  | cons a t =>
    rw [List.head?_cons] at hh
    have hac : a = c := by injection hh
    have ha : a ∈ (a :: t).reverse := by simp
    rw [← hac] at hc
    rw [this a ha] at hc
    exact absurd hc (by decide)

/-! ### `firstIdx` -/

theorem firstIdx_eq_some {p : Nat → Bool} {s n i : Nat}
    (h : firstIdx p s n = some i) :
    p i = true ∧ s ≤ i ∧ i < s + n ∧ ∀ j, s ≤ j → j < i → p j = false := by
  induction n generalizing s with
  | zero => exact absurd h (by simp [firstIdx])
  | succ n ih =>
    rw [firstIdx] at h
    by_cases hp : p s = true
    · rw [if_pos hp] at h
      cases h
      exact ⟨hp, Nat.le_refl _, by omega, fun j h1 h2 => by omega⟩
    · rw [if_neg hp] at h
      obtain ⟨hpi, hs, hlt, hmin⟩ := ih h
      refine ⟨hpi, by omega, by omega, fun j h1 h2 => ?_⟩
      by_cases hj : j = s
      · subst hj
        exact Bool.eq_false_iff.mpr hp
      · exact hmin j (by omega) h2

theorem firstIdx_intro {p : Nat → Bool} {s n i : Nat} (hp : p i = true)
    (hs : s ≤ i) (hlt : i < s + n)
    (hmin : ∀ j, s ≤ j → j < i → p j = false) : firstIdx p s n = some i := by
  induction n generalizing s with
  | zero => omega
  | succ n ih =>
    rw [firstIdx]
    by_cases hj : i = s
    · subst hj
      rw [if_pos hp]
    · rw [if_neg ?_]
      · exact ih (by omega) (by omega) (fun j h1 h2 => hmin j (by omega) h2)
      · rw [hmin s (Nat.le_refl _) (by omega)]
        simp

theorem firstIdx_none {p : Nat → Bool} {s n : Nat}
    (h : ∀ j, p j = false) : firstIdx p s n = none := by
  induction n generalizing s with
  | zero => rfl
  | succ n ih =>
    rw [firstIdx, h s]
    simpa using ih


/-! ### Concrete claim evaluations -/

/-- Claim C1, counterexample: "flour 200" has a digits-only trailing token and
a 5-character name, yet the quantity-at-end pattern does not match (the unit
word after the numeral is required, not optional) and the parser falls back to
an empty quantity. -/
theorem c1_counterexample :
    match_end (pyStrip "flour 200".data) = none ∧
    parse_ingredient (.vStr "flour 200") = ⟨"", "flour 200"⟩ ∧
    parse_ingredient (.vStr "flour 200") ≠ ⟨"200", "flour"⟩ := by decide

/-- Claim C2, counterexample: `parse_ingredient "2 1/2 cups sugar"` does not
return quantity "2 1/2 cups" with name "sugar". -/
theorem c2_counterexample :
    parse_ingredient (.vStr "2 1/2 cups sugar") ≠ ⟨"2 1/2 cups", "sugar"⟩ := by
  decide

/-- Claim C2, amended: the numeral class of the quantity-at-start pattern has
no whitespace, so the captured quantity stops at the first space;
`parse_ingredient "2 1/2 cups sugar"` returns quantity "2" and name
"1/2 cups sugar". -/
theorem c2_quantity_stops_at_space :
    parse_ingredient (.vStr "2 1/2 cups sugar") = ⟨"2", "1/2 cups sugar"⟩ := by
  decide

/-- Claim C3, counterexample: `parse_ingredient "salt to taste"` does not
recognise the English to-taste marker; it does not return quantity "to taste"
with name "salt". -/
theorem c3_counterexample :
    parse_ingredient (.vStr "salt to taste") ≠ ⟨"to taste", "salt"⟩ := by decide

/-- Claim C3, amended: only the Italian marker is in the vocabulary:
`parse_ingredient "sale q.b."` returns quantity "q.b." and name "sale", while
`parse_ingredient "salt to taste"` falls through to the fallback with empty
quantity and the whole text as name. -/
theorem c3_taste_markers :
    parse_ingredient (.vStr "sale q.b.") = ⟨"q.b.", "sale"⟩ ∧
    parse_ingredient (.vStr "salt to taste") = ⟨"", "salt to taste"⟩ := by
  decide

/-- Claim C4, counterexample: `parse_ingredient "a pinch of salt"` does not
return name "salt". -/
theorem c4_counterexample :
    (parse_ingredient (.vStr "a pinch of salt")).name ≠ "salt" := by decide

/-- Claim C4, amended: the vocabulary has no bare "pinch" (only
"pinches"/"pinche") and no article "a", and the start pattern skips only the
Italian connective "di", not "of"; so "a pinch of salt" falls back whole,
"pinches of salt" keeps "of" inside the name, and "pizzico di sale" shows the
connective that is skipped. -/
theorem c4_pinch_marker :
    parse_ingredient (.vStr "a pinch of salt") = ⟨"", "a pinch of salt"⟩ ∧
    parse_ingredient (.vStr "pinches of salt") = ⟨"pinches", "of salt"⟩ ∧
    parse_ingredient (.vStr "pizzico di sale") = ⟨"pizzico", "sale"⟩ := by
  decide

/-- Claim C7, counterexample: on "pizzico di sale" a pattern matches (the
quantity is non-empty), the character `d` occurs in the trimmed input, yet it
occurs in neither returned field: the connective "di" is dropped, so more than
whitespace is lost. -/
theorem c7_counterexample :
    (parse_ingredient (.vStr "pizzico di sale")).quantity ≠ "" ∧
    'd' ∈ pyStrip "pizzico di sale".data ∧
    'd' ∉ ((parse_ingredient (.vStr "pizzico di sale")).quantity.data ++
      (parse_ingredient (.vStr "pizzico di sale")).name.data) := by decide

/-- Claim C8, counterexample: "g di di sale" is matched with quantity "g"
(first) and name "di sale", but re-parsing the reconstruction
"g di sale" gives name "sale": the re-parse strips a further connective
"di", so the split is not reproduced. -/
theorem c8_counterexample :
    parse_ingredient (.vStr "g di di sale") = ⟨"g", "di sale"⟩ ∧
    parse_ingredient (.vStr ("g" ++ " " ++ "di sale")) ≠
      parse_ingredient (.vStr "g di di sale") := by decide


/-- Claim C5: for `None`, non-string values, the empty string, or a string
that strips to emptiness, `parse_ingredient` returns `{quantity:"", name:""}`
(and, being a total function, never fails). -/
theorem c5_invalid_inputs :
    parse_ingredient .vNone = ⟨"", ""⟩ ∧
    (∀ n : Int, parse_ingredient (.vInt n) = ⟨"", ""⟩) ∧
    (∀ b : Bool, parse_ingredient (.vBool b) = ⟨"", ""⟩) ∧
    parse_ingredient (.vStr "") = ⟨"", ""⟩ ∧
    (∀ s : String, pyStrip s.data = [] → parse_ingredient (.vStr s) = ⟨"", ""⟩) := by
  refine ⟨rfl, fun n => ?_, fun b => ?_, rfl, fun s h => ?_⟩
  · unfold parse_ingredient
    rw [if_pos (show truthy (PyVal.vInt n) = false ∨ isStr (PyVal.vInt n) = false from
      Or.inr rfl)]
  · unfold parse_ingredient
    rw [if_pos (show truthy (PyVal.vBool b) = false ∨ isStr (PyVal.vBool b) = false from
      Or.inr rfl)]
  · by_cases hs : s = ""
    · subst hs; rfl
    · unfold parse_ingredient
      rw [if_neg]
      · simp only [h, if_pos]
      · intro hor
        rcases hor with hf | hf
        · simp only [truthy, Bool.not_eq_false] at hf
          exact hs (by simpa using hf)
        · exact absurd hf (by simp [isStr])

/-- Claim C5, witness at concrete inputs. -/
theorem c5_witness :
    parse_ingredient (.vInt 123) = ⟨"", ""⟩ ∧
    parse_ingredient (.vStr "   ") = ⟨"", ""⟩ :=
  ⟨c5_invalid_inputs.2.1 123, c5_invalid_inputs.2.2.2.2 "   " (by decide)⟩


theorem isDigit_eq_false_of_pySpace {c : Char} (h : pySpace c = true) :
    c.isDigit = false := by
  rw [pySpace_iff] at h
  rcases h with rfl | rfl | rfl | rfl | rfl | rfl <;> decide

theorem firstDigitRun_some {l run : List Char} (h : firstDigitRun l = some run) :
    ∃ pre post, l = pre ++ run ++ post ∧ run ≠ [] ∧
      (∀ c ∈ run, c.isDigit = true) ∧ (∀ c ∈ pre, c.isDigit = false) ∧
      ∀ c, post.head? = some c → c.isDigit = false := by
  induction l with
  | nil => exact absurd h (by simp [firstDigitRun])
  | cons a t ih =>
    rw [firstDigitRun] at h
    by_cases hd : a.isDigit = true
    · rw [if_pos hd] at h
      have hrun : run = (a :: t).takeWhile Char.isDigit := by
        injection h with h
        exact h.symm
      subst hrun
      refine ⟨[], (a :: t).dropWhile Char.isDigit, ?_, ?_, ?_, by simp, ?_⟩
      · rw [List.nil_append, List.takeWhile_append_dropWhile]
      · simp [List.takeWhile_cons, hd]
      · intro c hc
        exact List.mem_takeWhile_imp hc
      · intro c hc
        have hx := List.head?_dropWhile_not Char.isDigit (a :: t)
        rw [hc] at hx
        exact hx
    · rw [if_neg hd] at h
      obtain ⟨pre, post, he, h1, h2, h3, h4⟩ := ih h
      refine ⟨a :: pre, post, ?_, h1, h2, ?_, h4⟩
      · simp [he]
      · intro c hc
        rcases List.mem_cons.mp hc with rfl | hc
        · exact Bool.eq_false_iff.mpr hd
        · exact h3 c hc

theorem firstDigitRun_none {l : List Char} (h : firstDigitRun l = none) :
    ∀ c ∈ l, c.isDigit = false := by
  induction l with
  | nil => simp
  | cons a t ih =>
    rw [firstDigitRun] at h
    by_cases hd : a.isDigit = true
    · rw [if_pos hd] at h
      cases h
    · rw [if_neg hd] at h
      intro c hc
      rcases List.mem_cons.mp hc with rfl | hc
      · exact Bool.eq_false_iff.mpr hd
      · exact ih h c hc

/-- Claim C9: `format_yields` returns the "N/A" sentinel for falsy input and
for the exact string "N/A"; any other value is coerced to text and the first
maximal run of decimal digits of its stripped text is returned, or the
sentinel when the text holds no digit at all; the stated examples evaluate as
claimed, and the function is total. -/
theorem c9_format_yields :
    (∀ v : PyVal, truthy v = false → format_yields v = "N/A") ∧
    format_yields (.vStr "N/A") = "N/A" ∧
    (∀ v : PyVal, truthy v = true → v ≠ .vStr "N/A" →
      (∃ pre run post, pyStrip (pyStr v).data = pre ++ run ++ post ∧ run ≠ [] ∧
          (∀ c ∈ run, c.isDigit = true) ∧ (∀ c ∈ pre, c.isDigit = false) ∧
          (∀ c, post.head? = some c → c.isDigit = false) ∧
          format_yields v = String.mk run) ∨
        ((∀ c ∈ (pyStr v).data, c.isDigit = false) ∧ format_yields v = "N/A")) ∧
    format_yields (.vStr "4 servings") = "4" ∧
    format_yields (.vStr "serves many") = "N/A" ∧
    format_yields (.vStr "6") = "6" := by
  refine ⟨fun v hv => ?_, rfl, fun v hv hna => ?_, by decide, by decide, by decide⟩
  · unfold format_yields
    rw [if_pos (Or.inl hv)]
  · have hcond : ¬(truthy v = false ∨ v = .vStr "N/A") := by
      intro hor
      rcases hor with hf | hf
      · rw [hv] at hf
        cases hf
      · exact hna hf
    cases hr : firstDigitRun (pyStrip (pyStr v).data) with
    | some run =>
      left
      obtain ⟨pre, post, he, h1, h2, h3, h4⟩ := firstDigitRun_some hr
      refine ⟨pre, run, post, he, h1, h2, h3, h4, ?_⟩
      unfold format_yields
      rw [if_neg hcond, hr]
    | none =>
      right
      constructor
      · have hstr := firstDigitRun_none hr
        intro c hc
        have hdec : (pyStr v).data =
            ((pyStr v).data.takeWhile pySpace) ++ lstrip (pyStr v).data :=
          (List.takeWhile_append_dropWhile pySpace _).symm
        obtain ⟨z, hz, hzw⟩ := rstrip_decomp (lstrip (pyStr v).data)
        rw [hdec] at hc
        rcases List.mem_append.mp hc with hc1 | hc2
        · exact isDigit_eq_false_of_pySpace (List.mem_takeWhile_imp hc1)
        · rw [hz] at hc2
          rcases List.mem_append.mp hc2 with hc3 | hc4
          · exact hstr c hc3
          · exact isDigit_eq_false_of_pySpace (hzw c hc4)
      · unfold format_yields
        rw [if_neg hcond, hr]

/-- Claim C9, witness at concrete inputs for the two guarded components. -/
theorem c9_witness :
    format_yields (.vInt 0) = "N/A" ∧
    ((∃ pre run post,
        pyStrip (pyStr (.vStr "abc12def34")).data = pre ++ run ++ post ∧
        run ≠ [] ∧ (∀ c ∈ run, c.isDigit = true) ∧
        (∀ c ∈ pre, c.isDigit = false) ∧
        (∀ c, post.head? = some c → c.isDigit = false) ∧
        format_yields (.vStr "abc12def34") = String.mk run) ∨
      ((∀ c ∈ (pyStr (.vStr "abc12def34")).data, c.isDigit = false) ∧
        format_yields (.vStr "abc12def34") = "N/A")) :=
  ⟨c9_format_yields.1 (.vInt 0) rfl,
   c9_format_yields.2.2.1 (.vStr "abc12def34") (by decide) (by decide)⟩


/-! ### Shape of the cascade -/

theorem tryBranch_some {q n : List Char} {r : ParsedIngredient}
    (h : tryBranch q n = some r) :
    r = ⟨String.mk q, String.mk n⟩ ∧ n ≠ [] ∧ 2 < n.length := by
  unfold tryBranch at h
  by_cases hc : n ≠ [] ∧ 2 < n.length
  · rw [if_pos hc] at h
    injection h with h
    exact ⟨h.symm, hc.1, hc.2⟩
  · rw [if_neg hc] at h
    cases h

theorem branchEnd_some {m : Option (List Char × List Char)} {r : ParsedIngredient}
    (h : branchEnd m = some r) :
    ∃ g1 g2, m = some (g1, g2) ∧
      r = ⟨String.mk (pyStrip g2), String.mk (pyStrip g1)⟩ ∧
      pyStrip g1 ≠ [] ∧ 2 < (pyStrip g1).length := by
  cases m with
  | none => cases h
  | some p =>
    obtain ⟨p1, p2⟩ := p
    have h' : tryBranch (pyStrip p2) (pyStrip p1) = some r := h
    obtain ⟨hr, h1, h2⟩ := tryBranch_some h'
    exact ⟨p1, p2, rfl, hr, h1, h2⟩

theorem branchStart_some {m : Option (List Char × List Char)} {r : ParsedIngredient}
    (h : branchStart m = some r) :
    ∃ g1 g2, m = some (g1, g2) ∧
      r = ⟨String.mk (pyStrip g1), String.mk (pyStrip g2)⟩ ∧
      pyStrip g2 ≠ [] ∧ 2 < (pyStrip g2).length := by
  cases m with
  | none => cases h
  | some p =>
    obtain ⟨p1, p2⟩ := p
    have h' : tryBranch (pyStrip p1) (pyStrip p2) = some r := h
    obtain ⟨hr, h1, h2⟩ := tryBranch_some h'
    exact ⟨p1, p2, rfl, hr, h1, h2⟩

theorem endResult_cases {t : List Char} {r : ParsedIngredient}
    (h : endResult t = some r) :
    branchEnd (match_end t) = some r ∨
      (branchEnd (match_end t) = none ∧ branchEnd (special_end t) = some r) := by
  unfold endResult at h
  cases hb : branchEnd (match_end t) with
  | some r' =>
    rw [hb] at h
    injection h with h
    exact Or.inl (by rw [h])
  | none =>
    rw [hb] at h
    exact Or.inr ⟨rfl, h⟩

theorem startResult_cases {t : List Char} {r : ParsedIngredient}
    (h : startResult t = some r) :
    branchStart (matchUnitStart t) = some r ∨
      (branchStart (matchUnitStart t) = none ∧
        branchStart (matchNumStart t) = some r) := by
  unfold startResult at h
  cases hb : branchStart (matchUnitStart t) with
  | some r' =>
    rw [hb] at h
    injection h with h
    exact Or.inl (by rw [h])
  | none =>
    rw [hb] at h
    exact Or.inr ⟨rfl, h⟩

theorem endResult_fields {t : List Char} {r : ParsedIngredient}
    (h : endResult t = some r) :
    ∃ g1 g2, r = ⟨String.mk (pyStrip g2), String.mk (pyStrip g1)⟩ ∧
      pyStrip g1 ≠ [] ∧ 2 < (pyStrip g1).length := by
  rcases endResult_cases h with hb | ⟨_, hb⟩ <;>
    · obtain ⟨g1, g2, _, hr, h1, h2⟩ := branchEnd_some hb
      exact ⟨g1, g2, hr, h1, h2⟩

theorem startResult_fields {t : List Char} {r : ParsedIngredient}
    (h : startResult t = some r) :
    ∃ g1 g2, r = ⟨String.mk (pyStrip g1), String.mk (pyStrip g2)⟩ ∧
      pyStrip g2 ≠ [] ∧ 2 < (pyStrip g2).length := by
  rcases startResult_cases h with hb | ⟨_, hb⟩ <;>
    · obtain ⟨g1, g2, _, hr, h1, h2⟩ := branchStart_some hb
      exact ⟨g1, g2, hr, h1, h2⟩

theorem matched_name_long {t : List Char} {r : ParsedIngredient}
    (h : endResult t = some r ∨ startResult t = some r) :
    2 < r.name.length ∧ r.name ≠ "" := by
  have hlen : 2 < r.name.length := by
    rcases h with h | h
    · obtain ⟨g1, g2, hr, _, h2⟩ := endResult_fields h
      rw [hr]
      exact h2
    · obtain ⟨g1, g2, hr, _, h2⟩ := startResult_fields h
      rw [hr]
      exact h2
  refine ⟨hlen, fun he => ?_⟩
  rw [he] at hlen
  exact absurd hlen (by decide)

theorem parseIngredientText_shape (t : List Char) :
    (∃ r, (endResult t = some r ∨ startResult t = some r) ∧
       parseIngredientText t = r) ∨
    (endResult t = none ∧ startResult t = none ∧
       parseIngredientText t = ⟨"", String.mk t⟩) := by
  cases he : endResult t with
  | some r =>
    refine Or.inl ⟨r, Or.inl rfl, ?_⟩
    unfold parseIngredientText
    rw [he]
  | none =>
    cases hs : startResult t with
    | some r =>
      refine Or.inl ⟨r, Or.inr rfl, ?_⟩
      unfold parseIngredientText
      rw [he, hs]
    | none =>
      refine Or.inr ⟨rfl, rfl, ?_⟩
      unfold parseIngredientText
      rw [he, hs]

theorem parse_ingredient_str {s : String} (hs : s ≠ "")
    (ht : pyStrip s.data ≠ []) :
    parse_ingredient (.vStr s) = parseIngredientText (pyStrip s.data) := by
  unfold parse_ingredient
  rw [if_neg]
  · show (if pyStrip s.data = [] then (⟨"", ""⟩ : ParsedIngredient)
      else parseIngredientText (pyStrip s.data)) = _
    rw [if_neg ht]
  · intro hor
    rcases hor with hf | hf
    · simp only [truthy, Bool.not_eq_false] at hf
      exact hs (by simpa using hf)
    · exact absurd hf (by simp [isStr])

theorem parse_ingredient_degenerate {s : String} (h : pyStrip s.data = []) :
    parse_ingredient (.vStr s) = ⟨"", ""⟩ := by
  by_cases hs : s = ""
  · subst hs; rfl
  · unfold parse_ingredient
    rw [if_neg]
    · show (if pyStrip s.data = [] then (⟨"", ""⟩ : ParsedIngredient)
        else parseIngredientText (pyStrip s.data)) = _
      rw [if_pos h]
    · intro hor
      rcases hor with hf | hf
      · simp only [truthy, Bool.not_eq_false] at hf
        exact hs (by simpa using hf)
      · exact absurd hf (by simp [isStr])

/-- Claim C6: a non-empty name shorter than 3 characters can only come from
the fallback, where the name is the whole trimmed input; every matched
pattern (identified by a non-empty quantity) yields a name longer than 2
characters. -/
theorem c6_short_name_fallback :
    ∀ s : String,
      ((parse_ingredient (.vStr s)).quantity ≠ "" →
        2 < (parse_ingredient (.vStr s)).name.length) ∧
      ((parse_ingredient (.vStr s)).name ≠ "" →
        (parse_ingredient (.vStr s)).name.length < 3 →
        (parse_ingredient (.vStr s)).name = String.mk (pyStrip s.data)) := by
  intro s
  by_cases ht : pyStrip s.data = []
  · rw [parse_ingredient_degenerate ht]
    exact ⟨fun h => absurd rfl h, fun h => absurd rfl h⟩
  · by_cases hs : s = ""
    · subst hs
      exact absurd (by decide) ht
    · rw [parse_ingredient_str hs ht]
      rcases parseIngredientText_shape (pyStrip s.data) with ⟨r, hm, hp⟩ | ⟨_, _, hp⟩
      · rw [hp]
        obtain ⟨hlen, _⟩ := matched_name_long hm
        exact ⟨fun _ => hlen, fun _ hlt => absurd hlt (by omega)⟩
      · rw [hp]
        exact ⟨fun h => absurd rfl h, fun _ _ => rfl⟩

/-- Claim C6, witness: "ab" falls back with its short name equal to the whole
trimmed input, and the matched "flour 200 g" has a name longer than 2. -/
theorem c6_witness :
    (parse_ingredient (.vStr "ab")).name = String.mk (pyStrip "ab".data) ∧
    2 < (parse_ingredient (.vStr "flour 200 g")).name.length :=
  ⟨(c6_short_name_fallback "ab").2 (by decide) (by decide),
   (c6_short_name_fallback "flour 200 g").1 (by decide)⟩


/-! ### Soundness of the matchers -/

theorem headIsWs_iff {l : List Char} :
    headIsWs l = true ↔ ∃ c, l.head? = some c ∧ pySpace c = true := by
  cases l with
  | nil => simp [headIsWs]
  | cons a t => simp [headIsWs, List.head?_cons]

theorem okSplitAt_true {o : List Char → Bool} {t : List Char} {i : Nat}
    (h : okSplitAt o t i = true) :
    0 < i ∧ (t.take i).contains '\n' = false ∧
      headIsWs (t.drop i) = true ∧ o (wsTail t i) = true := by
  unfold okSplitAt at h
  simp only [Bool.and_eq_true, decide_eq_true_eq, Bool.not_eq_true'] at h
  exact ⟨h.1.1.1, h.1.1.2, h.1.2, h.2⟩

theorem okSplitAt_intro {o : List Char → Bool} {t : List Char} {i : Nat}
    (h1 : 0 < i) (h2 : (t.take i).contains '\n' = false)
    (h3 : headIsWs (t.drop i) = true) (h4 : o (wsTail t i) = true) :
    okSplitAt o t i = true := by
  unfold okSplitAt
  simp only [Bool.and_eq_true, decide_eq_true_eq, Bool.not_eq_true']
  exact ⟨⟨⟨h1, h2⟩, h3⟩, h4⟩

theorem match_end_some {t : List Char} {g : List Char × List Char}
    (h : match_end t = some g) :
    ∃ i, g = (t.take i, wsTail t i) ∧ i < t.length ∧
      okSplitAt isNumUnit t i = true ∧
      ∀ j, j < i → okSplitAt isNumUnit t j = false := by
  unfold match_end at h
  cases hf : firstIdx (okSplitAt isNumUnit t) 0 t.length with
  | none => rw [hf] at h; cases h
  | some i =>
    rw [hf] at h
    injection h with h
    obtain ⟨hp, _, hlt, hmin⟩ := firstIdx_eq_some hf
    exact ⟨i, h.symm, by omega, hp, fun j hj => hmin j (Nat.zero_le j) hj⟩

theorem special_end_some {t : List Char} {g : List Char × List Char}
    (h : special_end t = some g) :
    ∃ i, g = (t.take i, wsTail t i) ∧ i < t.length ∧
      okSplitAt isSpecialQ t i = true ∧
      ∀ j, j < i → okSplitAt isSpecialQ t j = false := by
  unfold special_end at h
  cases hf : firstIdx (okSplitAt isSpecialQ t) 0 t.length with
  | none => rw [hf] at h; cases h
  | some i =>
    rw [hf] at h
    injection h with h
    obtain ⟨hp, _, hlt, hmin⟩ := firstIdx_eq_some hf
    exact ⟨i, h.symm, by omega, hp, fun j hj => hmin j (Nat.zero_le j) hj⟩

theorem wsTail_head_not {t : List Char} {i : Nat} {c : Char}
    (h : (wsTail t i).head? = some c) : pySpace c = false := by
  have hx := List.head?_dropWhile_not pySpace (t.drop i)
  unfold wsTail at h
  rw [h] at hx
  exact hx

theorem isNumUnit_ne_nil {l : List Char} (h : isNumUnit l = true) : l ≠ [] := by
  intro hl
  subst hl
  exact absurd h (by decide)

theorem isSpecialQ_ne_nil {l : List Char} (h : isSpecialQ l = true) : l ≠ [] := by
  intro hl
  subst hl
  exact absurd h (by decide)

theorem pyStrip_wsTail_ne_nil {t : List Char} {i : Nat}
    (hne : wsTail t i ≠ []) : pyStrip (wsTail t i) ≠ [] := by
  cases hh : (wsTail t i).head? with
  | none => exact absurd (by simpa using hh) hne
  | some c => exact pyStrip_ne_nil hh (wsTail_head_not hh)

theorem variantAt_true {t v : List Char} (h : variantAt t v = true) :
    lowers (t.take v.length) = v ∧ headIsWs (t.drop v.length) = true := by
  unfold variantAt at h
  simp only [Bool.and_eq_true, beq_iff_eq] at h
  exact h

theorem ws_free_of_lowers_unit {l v : List Char} (hv : v ∈ unitVariants)
    (hl : lowers l = v) : ∀ c ∈ l, pySpace c = false := by
  intro c hc
  cases hw : pySpace c
  · rfl
  · have hm : lowerC c ∈ v := by
      rw [← hl]
      exact List.mem_map_of_mem _ hc
    rw [lowerC_of_pySpace hw] at hm
    rw [unitVariants_ws_free v hv c hm] at hw
    cases hw

theorem unitVariants_ne_nil : ∀ v ∈ unitVariants, v ≠ [] := by decide

theorem matchUnitStart_some {t : List Char} {g1 g2 : List Char}
    (h : matchUnitStart t = some (g1, g2)) :
    ∃ v ∈ unitVariants, variantAt t v = true ∧ g1 = t.take v.length ∧
      diSplit ((t.drop v.length).dropWhile pySpace) = some g2 := by
  unfold matchUnitStart at h
  obtain ⟨v, hv, hf⟩ := List.exists_of_findSome?_eq_some h
  by_cases hva : variantAt t v = true
  · rw [if_pos hva] at hf
    cases hd : diSplit ((t.drop v.length).dropWhile pySpace) with
    | none => rw [hd] at hf; cases hf
    | some g2' =>
      rw [hd] at hf
      simp only [Option.map_some'] at hf
      injection hf with hf
      have h1 : t.take v.length = g1 := congrArg Prod.fst hf
      have h2 : g2' = g2 := congrArg Prod.snd hf
      exact ⟨v, hv, hva, h1.symm, by rw [hd, h2]⟩
  · rw [if_neg hva] at hf
    cases hf

theorem matchNumStart_some {t : List Char} {g1 g2 : List Char}
    (h : matchNumStart t = some (g1, g2)) :
    ∃ p w afterW, p = t.takeWhile numChar ∧ p ≠ [] ∧
      w = (t.drop p.length).takeWhile pySpace ∧
      afterW = (t.drop p.length).drop w.length ∧
      ((∃ v ∈ unitVariants, variantAt afterW v = true ∧
          g1 = p ++ w ++ afterW.take v.length ∧
          diSplit ((afterW.drop v.length).dropWhile pySpace) = some g2) ∨
       (w ≠ [] ∧ g1 = p ∧ diSplit afterW = some g2)) := by
  unfold matchNumStart at h
  by_cases hp : (t.takeWhile numChar).isEmpty
  · rw [if_pos hp] at h
    cases h
  · rw [if_neg hp] at h
    simp only [] at h
    refine ⟨_, _, _, rfl, by simpa [List.isEmpty_iff] using hp, rfl, rfl, ?_⟩
    split at h
    · rename_i r heq
      injection h with h
      subst h
      obtain ⟨v, hv, hf⟩ := List.exists_of_findSome?_eq_some heq
      by_cases hva : variantAt ((t.drop (t.takeWhile numChar).length).drop
          ((t.drop (t.takeWhile numChar).length).takeWhile pySpace).length) v = true
      · rw [if_pos hva] at hf
        cases hd : diSplit ((((t.drop (t.takeWhile numChar).length).drop
            ((t.drop (t.takeWhile numChar).length).takeWhile pySpace).length).drop
            v.length).dropWhile pySpace) with
        | none => rw [hd] at hf; cases hf
        | some g2' =>
          rw [hd] at hf
          simp only [Option.map_some'] at hf
          injection hf with hf
          have h1 := congrArg Prod.fst hf
          have h2 := congrArg Prod.snd hf
          simp only at h1 h2
          exact Or.inl ⟨v, hv, hva, h1.symm, by rw [hd, h2]⟩
      · rw [if_neg hva] at hf
        cases hf
    · rename_i heq
      by_cases hw : ((t.drop (t.takeWhile numChar).length).takeWhile pySpace).isEmpty
      · rw [if_pos hw] at h
        cases h
      · rw [if_neg hw] at h
        cases hd : diSplit ((t.drop (t.takeWhile numChar).length).drop
            ((t.drop (t.takeWhile numChar).length).takeWhile pySpace).length) with
        | none => rw [hd] at h; cases h
        | some g2' =>
          rw [hd] at h
          simp only [Option.map_some'] at h
          injection h with h
          have h1 := congrArg Prod.fst h
          have h2 := congrArg Prod.snd h
          simp only at h1 h2
          exact Or.inr ⟨by simpa [List.isEmpty_iff] using hw, h1.symm, by rw [h2]⟩


theorem takeWhile_head_of_ne_nil {p : Char → Bool} {l : List Char}
    (h : l.takeWhile p ≠ []) :
    ∃ c, (l.takeWhile p).head? = some c ∧ p c = true := by
  cases hl : l.takeWhile p with
  | nil => exact absurd hl h
  | cons a t =>
    refine ⟨a, rfl, ?_⟩
    have : a ∈ l.takeWhile p := by rw [hl]; exact List.mem_cons_self a t
    exact List.mem_takeWhile_imp this

theorem mk_ne_empty_of_ne_nil {l : List Char} (h : l ≠ []) : String.mk l ≠ "" :=
  fun he => h (mk_eq_empty_iff.mp he)

theorem mk_pyStrip_trimmed (x : List Char) :
    pyStrip (String.mk (pyStrip x)).data = (String.mk (pyStrip x)).data := by
  rw [data_mk, pyStrip_idem]

theorem pyStrip_ne_nil_of_ws_free {l : List Char} (hne : l ≠ [])
    (hfree : ∀ c ∈ l, pySpace c = false) : pyStrip l ≠ [] := by
  cases hh : l.head? with
  | none => exact absurd (by simpa using hh) hne
  | some c =>
    obtain ⟨ys, hy⟩ := List.head?_eq_some_iff.mp hh
    exact pyStrip_ne_nil hh (hfree c (by rw [hy]; exact List.mem_cons_self c ys))

theorem endResult_quantity_ne_nil {t : List Char} {r : ParsedIngredient}
    (h : endResult t = some r) :
    ∃ g1 g2, r = ⟨String.mk (pyStrip g2), String.mk (pyStrip g1)⟩ ∧
      pyStrip g1 ≠ [] ∧ 2 < (pyStrip g1).length ∧ pyStrip g2 ≠ [] := by
  rcases endResult_cases h with hb | ⟨_, hb⟩
  · obtain ⟨g1, g2, hm, hr, h1, h2⟩ := branchEnd_some hb
    obtain ⟨i, hg, _, hok, _⟩ := match_end_some hm
    injection hg with hg1 hg2
    refine ⟨g1, g2, hr, h1, h2, ?_⟩
    rw [hg2]
    exact pyStrip_wsTail_ne_nil (isNumUnit_ne_nil ((okSplitAt_true hok).2.2.2))
  · obtain ⟨g1, g2, hm, hr, h1, h2⟩ := branchEnd_some hb
    obtain ⟨i, hg, _, hok, _⟩ := special_end_some hm
    injection hg with hg1 hg2
    refine ⟨g1, g2, hr, h1, h2, ?_⟩
    rw [hg2]
    exact pyStrip_wsTail_ne_nil (isSpecialQ_ne_nil ((okSplitAt_true hok).2.2.2))

theorem startResult_quantity_ne_nil {t : List Char} {r : ParsedIngredient}
    (h : startResult t = some r) :
    ∃ g1 g2, r = ⟨String.mk (pyStrip g1), String.mk (pyStrip g2)⟩ ∧
      pyStrip g2 ≠ [] ∧ 2 < (pyStrip g2).length ∧ pyStrip g1 ≠ [] := by
  rcases startResult_cases h with hb | ⟨_, hb⟩
  · obtain ⟨g1, g2, hm, hr, h1, h2⟩ := branchStart_some hb
    obtain ⟨v, hv, hva, hg1, _⟩ := matchUnitStart_some hm
    refine ⟨g1, g2, hr, h1, h2, ?_⟩
    have hlow : lowers g1 = v := by rw [hg1]; exact (variantAt_true hva).1
    have hfree := ws_free_of_lowers_unit hv hlow
    have hne : g1 ≠ [] := by
      intro he
      rw [he] at hlow
      exact unitVariants_ne_nil v hv (by rw [← hlow]; rfl)
    exact pyStrip_ne_nil_of_ws_free hne hfree
  · obtain ⟨g1, g2, hm, hr, h1, h2⟩ := branchStart_some hb
    obtain ⟨p, w, afterW, hp, hpne, hw, ha, hcase⟩ := matchNumStart_some hm
    refine ⟨g1, g2, hr, h1, h2, ?_⟩
    obtain ⟨c, hc, hnum⟩ := takeWhile_head_of_ne_nil (p := numChar) (hp ▸ hpne)
    have hcws : pySpace c = false := pySpace_eq_false_of_numChar hnum
    have hg1h : g1.head? = some c := by
      rcases hcase with ⟨v, _, _, hg1, _⟩ | ⟨_, hg1, _⟩
      · rw [hg1, List.append_assoc, head?_append_left hpne, hp]
        exact hc
      · rw [hg1, hp]
        exact hc
    exact pyStrip_ne_nil hg1h hcws

theorem parse_ingredient_not_str {v : PyVal} (h : isStr v = false) :
    parse_ingredient v = ⟨"", ""⟩ := by
  unfold parse_ingredient
  rw [if_pos (Or.inr h)]

/-- Claim C10: an empty quantity identifies exactly the fallback and
invalid-input cases: either the quantity is non-empty, and then the name is
non-empty and both fields are whitespace-trimmed, or the quantity is empty
and the name is the entire trimmed input (empty only for non-string or blank
input); the two cases exclude each other. -/
theorem c10_empty_quantity_iff_fallback :
    ∀ v : PyVal,
      (((parse_ingredient v).quantity ≠ "" ∧ (parse_ingredient v).name ≠ "" ∧
          pyStrip (parse_ingredient v).quantity.data =
            (parse_ingredient v).quantity.data ∧
          pyStrip (parse_ingredient v).name.data =
            (parse_ingredient v).name.data) ∨
        ((parse_ingredient v).quantity = "" ∧
          (parse_ingredient v).name = trimmedInput v)) ∧
      ¬((parse_ingredient v).quantity ≠ "" ∧ (parse_ingredient v).quantity = "") := by
  intro v
  refine ⟨?_, fun hx => hx.1 hx.2⟩
  cases v with
  | vNone => exact Or.inr ⟨rfl, rfl⟩
  | vInt n =>
    rw [parse_ingredient_not_str (v := .vInt n) rfl]
    exact Or.inr ⟨rfl, rfl⟩
  | vBool b =>
    rw [parse_ingredient_not_str (v := .vBool b) rfl]
    exact Or.inr ⟨rfl, rfl⟩
  | vStr s =>
    by_cases ht : pyStrip s.data = []
    · right
      rw [parse_ingredient_degenerate ht]
      refine ⟨rfl, ?_⟩
      show ("" : String) = String.mk (pyStrip s.data)
      rw [ht]
    · by_cases hs : s = ""
      · subst hs
        exact absurd (by decide) ht
      · rw [parse_ingredient_str hs ht]
        rcases parseIngredientText_shape (pyStrip s.data) with ⟨r, hm, hp⟩ | ⟨_, _, hp⟩
        · left
          rw [hp]
          rcases hm with hm | hm
          · obtain ⟨g1, g2, hr, h1, _, h2⟩ := endResult_quantity_ne_nil hm
            rw [hr]
            exact ⟨mk_ne_empty_of_ne_nil h2, mk_ne_empty_of_ne_nil h1,
              mk_pyStrip_trimmed g2, mk_pyStrip_trimmed g1⟩
          · obtain ⟨g1, g2, hr, h1, _, h2⟩ := startResult_quantity_ne_nil hm
            rw [hr]
            exact ⟨mk_ne_empty_of_ne_nil h2, mk_ne_empty_of_ne_nil h1,
              mk_pyStrip_trimmed g1, mk_pyStrip_trimmed g2⟩
        · right
          rw [hp]
          exact ⟨rfl, rfl⟩


/-! ### The unit word is required in the quantity-at-end pattern -/

theorem prefix_takeWhile_of_all {p : Char → Bool} {l₁ l₂ : List Char}
    (h : l₁ <+: l₂) (hall : ∀ a ∈ l₁, p a = true) : l₁ <+: l₂.takeWhile p := by
  obtain ⟨rest, rfl⟩ := h
  rw [List.takeWhile_append_of_pos hall]
  exact ⟨rest.takeWhile p, rfl⟩

theorem suffix_lastToken_of_ws_free {u t : List Char} (hsuf : u <:+ t)
    (hfree : ∀ c ∈ u, pySpace c = false) : u <:+ lastToken t := by
  unfold lastToken
  rw [← List.reverse_reverse u, List.reverse_suffix]
  apply prefix_takeWhile_of_all
  · rw [List.reverse_prefix]
    exact hsuf
  · intro a ha
    rw [List.mem_reverse] at ha
    simp [hfree a ha]

theorem isUnitWord_mem {l : List Char} (h : isUnitWord l = true) :
    l ∈ unitVariants := by
  unfold isUnitWord at h
  exact List.elem_iff.mp h

theorem isNumUnit_false_of_numeric_tail {t l : List Char} (hsuf : l <:+ t)
    (hlt : ∀ c ∈ lastToken t, numChar c = true) : isNumUnit l = false := by
  cases hnu : isNumUnit l
  · rfl
  · exfalso
    have hword : isUnitWord
        (lowers ((l.drop (l.takeWhile numChar).length).dropWhile pySpace)) = true := by
      unfold isNumUnit at hnu
      simp only [Bool.and_eq_true] at hnu
      exact hnu.2
    set u := (l.drop (l.takeWhile numChar).length).dropWhile pySpace with hu
    have husuf : u <:+ t := by
      apply List.IsSuffix.trans _ hsuf
      exact (List.dropWhile_suffix pySpace).trans (List.drop_suffix _ _)
    have hvmem : lowers u ∈ unitVariants := isUnitWord_mem hword
    have hufree : ∀ c ∈ u, pySpace c = false :=
      ws_free_of_lowers_unit hvmem rfl
    obtain ⟨d, hd, hdnum, hdws⟩ := unitVariants_have_letter (lowers u) hvmem
    obtain ⟨c, hc, hlc⟩ := List.mem_map.mp hd
    have hcnum : numChar c = false := by
      cases hcn : numChar c
      · rfl
      · rw [lowerC_of_numChar hcn] at hlc
        rw [hlc] at hcn
        rw [hcn] at hdnum
        cases hdnum
    have hmemtok : c ∈ lastToken t :=
      (suffix_lastToken_of_ws_free husuf hufree).subset hc
    rw [hlt c hmemtok] at hcnum
    cases hcnum

/-- Claim C1 (amended): the recognized unit word after the numeral is
required, not optional, in the quantity-at-end pattern: whenever the last
whitespace-separated token of the text consists only of digits, `/`, `-`,
`.`, `,` characters, the pattern does not match at all (so an input
`<name> <numeral>` with no unit word never takes this branch; "flour 200"
instead reaches the fallback, see the counterexample theorem). -/
theorem c1_unit_required :
    ∀ t : List Char, (∀ c ∈ lastToken t, numChar c = true) →
      match_end t = none := by
  intro t hlt
  have hall : ∀ j, okSplitAt isNumUnit t j = false := by
    intro j
    cases hok : okSplitAt isNumUnit t j
    · rfl
    · exfalso
      have h4 := (okSplitAt_true hok).2.2.2
      have hsuf : wsTail t j <:+ t :=
        (List.dropWhile_suffix pySpace).trans (List.drop_suffix _ _)
      rw [isNumUnit_false_of_numeric_tail hsuf hlt] at h4
      cases h4
  unfold match_end
  rw [firstIdx_none hall]
  rfl

/-- Claim C1, witness: the pattern indeed fails on "flour 200". -/
theorem c1_witness : match_end "flour 200".data = none :=
  c1_unit_required "flour 200".data (by decide)


/-! ### Character preservation -/

theorem split_decomp (t : List Char) (i : Nat) :
    t = t.take i ++ ((t.drop i).takeWhile pySpace ++ wsTail t i) := by
  rw [wsTail, List.takeWhile_append_dropWhile, List.take_append_drop]

theorem append_drop_of_prefix {l₁ t : List Char} (h : l₁ <+: t) :
    t = l₁ ++ t.drop l₁.length := by
  obtain ⟨rest, rfl⟩ := h
  rw [List.drop_left]

theorem ws_free_of_lowers_di {D : List Char} (hD : lowers D = ['d', 'i']) :
    ∀ c ∈ D, pySpace c = false := by
  intro c hc
  cases hw : pySpace c
  · rfl
  · exfalso
    have hm : lowerC c ∈ (['d', 'i'] : List Char) := by
      rw [← hD]
      exact List.mem_map_of_mem _ hc
    rw [lowerC_of_pySpace hw] at hm
    rcases List.mem_cons.mp hm with rfl | hm
    · exact absurd hw (by decide)
    · rcases List.mem_cons.mp hm with rfl | hm
      · exact absurd hw (by decide)
      · exact absurd hm (List.not_mem_nil _)

theorem diSplit_decomp {rest g2 : List Char} (h : diSplit rest = some g2) :
    g2 = rest ∨
      (g2 = (rest.drop 2).dropWhile pySpace ∧ lowers (rest.take 2) = ['d', 'i']) := by
  unfold diSplit at h
  by_cases hdi : lowers (rest.take 2) = ['d', 'i'] ∧ headIsWs (rest.drop 2) = true
  · rw [if_pos hdi] at h
    by_cases h2 : (rest.drop 2).dropWhile pySpace ≠ [] ∧
        ((rest.drop 2).dropWhile pySpace).contains '\n' = false
    · rw [if_pos h2] at h
      injection h with h
      exact Or.inr ⟨h.symm, hdi.1⟩
    · rw [if_neg h2] at h
      by_cases h3 : rest ≠ [] ∧ rest.contains '\n' = false
      · rw [if_pos h3] at h
        injection h with h
        exact Or.inl h.symm
      · rw [if_neg h3] at h
        cases h
  · rw [if_neg hdi] at h
    by_cases h3 : rest ≠ [] ∧ rest.contains '\n' = false
    · rw [if_pos h3] at h
      injection h with h
      exact Or.inl h.symm
    · rw [if_neg h3] at h
      cases h

theorem diSplit_nonWs {rest g2 : List Char} (h : diSplit rest = some g2) :
    ∃ mid, nonWsChars rest = mid ++ nonWsChars g2 ∧
      (mid = [] ∨ lowers mid = ['d', 'i']) := by
  rcases diSplit_decomp h with rfl | ⟨hg2, hdi⟩
  · exact ⟨[], rfl, Or.inl rfl⟩
  · refine ⟨rest.take 2, ?_, Or.inr hdi⟩
    have hdec : rest = rest.take 2 ++ ((rest.drop 2).takeWhile pySpace ++ g2) := by
      rw [hg2, List.takeWhile_append_dropWhile, List.take_append_drop]
    have htwz : nonWsChars ((rest.drop 2).takeWhile pySpace) = [] :=
      nonWsChars_eq_nil_of_ws (fun c hc => List.mem_takeWhile_imp hc)
    have hself : nonWsChars (rest.take 2) = rest.take 2 := by
      unfold nonWsChars
      rw [List.filter_eq_self]
      intro c hc
      simp [ws_free_of_lowers_di hdi c hc]
    conv_lhs => rw [hdec]
    simp only [nonWsChars_append, htwz, hself, List.nil_append]

theorem nonWs_concat3 {a w b : List Char} (hw : ∀ c ∈ w, pySpace c = true) :
    nonWsChars (a ++ (w ++ b)) = nonWsChars a ++ nonWsChars b := by
  rw [nonWsChars_append, nonWsChars_append, nonWsChars_eq_nil_of_ws hw,
    List.nil_append]

/-- Claim C7 (amended): for the two end-anchored patterns, the trimmed
input's non-whitespace character sequence is exactly the name's followed by
the quantity's (only whitespace is lost); for the two start-anchored
patterns it is the quantity's, then possibly one dropped connective token
matching "di" case-insensitively, then the name's. -/
theorem c7_char_preservation :
    ∀ t : List Char,
      (∀ r, endResult t = some r →
        nonWsChars t = nonWsChars r.name.data ++ nonWsChars r.quantity.data) ∧
      (∀ r, startResult t = some r →
        ∃ mid,
          nonWsChars t = nonWsChars r.quantity.data ++ mid ++ nonWsChars r.name.data ∧
          (mid = [] ∨ lowers mid = ['d', 'i'])) := by
  intro t
  constructor
  · intro r h
    have key : ∀ g1 g2 i, (g1, g2) = ((t.take i : List Char), wsTail t i) →
        r = ⟨String.mk (pyStrip g2), String.mk (pyStrip g1)⟩ →
        nonWsChars t = nonWsChars r.name.data ++ nonWsChars r.quantity.data := by
      intro g1 g2 i hg hr
      injection hg with hg1 hg2
      rw [hr]
      simp only [data_mk]
      rw [nonWs_pyStrip, nonWs_pyStrip, hg1, hg2]
      conv_lhs => rw [split_decomp t i]
      exact nonWs_concat3 (fun c hc => List.mem_takeWhile_imp hc)
    rcases endResult_cases h with hb | ⟨_, hb⟩
    · obtain ⟨g1, g2, hm, hr, _, _⟩ := branchEnd_some hb
      obtain ⟨i, hg, _, _, _⟩ := match_end_some hm
      exact key g1 g2 i hg hr
    · obtain ⟨g1, g2, hm, hr, _, _⟩ := branchEnd_some hb
      obtain ⟨i, hg, _, _, _⟩ := special_end_some hm
      exact key g1 g2 i hg hr
  · intro r h
    rcases startResult_cases h with hb | ⟨_, hb⟩
    · obtain ⟨g1, g2, hm, hr, _, _⟩ := branchStart_some hb
      obtain ⟨v, hv, hva, hg1, hd⟩ := matchUnitStart_some hm
      obtain ⟨mid, hmid, hcase⟩ := diSplit_nonWs hd
      refine ⟨mid, ?_, hcase⟩
      rw [hr]
      simp only [data_mk]
      rw [nonWs_pyStrip, nonWs_pyStrip, hg1]
      have hdecT : t = t.take v.length ++
          ((t.drop v.length).takeWhile pySpace ++
            (t.drop v.length).dropWhile pySpace) := by
        rw [List.takeWhile_append_dropWhile, List.take_append_drop]
      have htwz : nonWsChars ((t.drop v.length).takeWhile pySpace) = [] :=
        nonWsChars_eq_nil_of_ws (fun c hc => List.mem_takeWhile_imp hc)
      conv_lhs => rw [hdecT]
      simp only [nonWsChars_append, htwz, hmid, List.nil_append,
        List.append_assoc]
    · obtain ⟨g1, g2, hm, hr, _, _⟩ := branchStart_some hb
      obtain ⟨p, w, afterW, hp, hpne, hw, ha, hcase⟩ := matchNumStart_some hm
      have hdecP : t = p ++ (t.drop p.length) := by
        apply append_drop_of_prefix
        rw [hp]
        exact List.takeWhile_prefix numChar
      have hdecW : t.drop p.length = w ++ afterW := by
        rw [ha]
        apply append_drop_of_prefix
        rw [hw]
        exact List.takeWhile_prefix pySpace
      have hwz : nonWsChars w = [] := by
        apply nonWsChars_eq_nil_of_ws
        intro c hc
        rw [hw] at hc
        exact List.mem_takeWhile_imp hc
      rcases hcase with ⟨v, hv, hva, hg1, hd⟩ | ⟨hwne, hg1, hd⟩
      · obtain ⟨mid, hmid, hcase2⟩ := diSplit_nonWs hd
        refine ⟨mid, ?_, hcase2⟩
        rw [hr]
        simp only [data_mk]
        rw [nonWs_pyStrip, nonWs_pyStrip, hg1]
        have hdecV : afterW = afterW.take v.length ++
            ((afterW.drop v.length).takeWhile pySpace ++
              (afterW.drop v.length).dropWhile pySpace) := by
          rw [List.takeWhile_append_dropWhile, List.take_append_drop]
        have htwz : nonWsChars ((afterW.drop v.length).takeWhile pySpace) = [] :=
          nonWsChars_eq_nil_of_ws (fun c hc => List.mem_takeWhile_imp hc)
        conv_lhs => rw [hdecP, hdecW, hdecV]
        simp only [nonWsChars_append, hwz, htwz, hmid, List.nil_append,
          List.append_nil, List.append_assoc]
      · obtain ⟨mid, hmid, hcase2⟩ := diSplit_nonWs hd
        refine ⟨mid, ?_, hcase2⟩
        rw [hr]
        simp only [data_mk]
        rw [nonWs_pyStrip, nonWs_pyStrip, hg1]
        conv_lhs => rw [hdecP, hdecW]
        simp only [nonWsChars_append, hwz, hmid, List.nil_append,
          List.append_assoc]

/-- Claim C7, witness: an end-anchored match ("flour 200 g") preserves the
non-whitespace characters in name-quantity order, and a start-anchored match
("200 g di farina") preserves them up to the dropped connective. -/
theorem c7_witness :
    nonWsChars "flour 200 g".data =
      nonWsChars (parse_ingredient (.vStr "flour 200 g")).name.data ++
        nonWsChars (parse_ingredient (.vStr "flour 200 g")).quantity.data ∧
    ∃ mid, nonWsChars "200 g di farina".data =
        nonWsChars (parse_ingredient (.vStr "200 g di farina")).quantity.data ++
          mid ++ nonWsChars (parse_ingredient (.vStr "200 g di farina")).name.data ∧
        (mid = [] ∨ lowers mid = ['d', 'i']) := by
  constructor
  · have h := (c7_char_preservation "flour 200 g".data).1
      (parse_ingredient (.vStr "flour 200 g")) (by decide)
    exact h
  · have h := (c7_char_preservation "200 g di farina".data).2
      (parse_ingredient (.vStr "200 g di farina")) (by decide)
    exact h


/-! ### Re-parsing end-anchored reconstructions -/

theorem contains_false_iff {l : List Char} {a : Char} :
    l.contains a = false ↔ a ∉ l := by
  rw [← Bool.not_eq_true]
  unfold List.contains
  rw [List.elem_iff]

theorem headIsWs_append_left {x y : List Char} (h : y ≠ []) :
    headIsWs (y ++ x) = headIsWs y := by
  cases y with
  | nil => exact absurd rfl h
  | cons a t => rfl

theorem take_append_left {A X : List Char} {j : Nat} (h : j ≤ A.length) :
    (A ++ X).take j = A.take j := by
  rw [List.take_append_eq_append_take, Nat.sub_eq_zero_of_le h, List.take_zero,
    List.append_nil]

theorem drop_append_left {A X : List Char} {j : Nat} (h : j ≤ A.length) :
    (A ++ X).drop j = A.drop j ++ X := by
  rw [List.drop_append_eq_append_drop, Nat.sub_eq_zero_of_le h, List.drop_zero]

theorem getLast?_of_suffix {l₁ l₂ : List Char} (h : l₁ <:+ l₂) (hne : l₁ ≠ []) :
    l₂.getLast? = l₁.getLast? := by
  obtain ⟨pre, rfl⟩ := h
  exact getLast?_append_left hne

theorem drop_ne_nil {A : List Char} {j : Nat} (h : j < A.length) :
    A.drop j ≠ [] := by
  intro he
  have := congrArg List.length he
  rw [List.length_drop] at this
  simp at this
  omega

theorem dropWhile_append_of_ne {p : Char → Bool} {l₁ l₂ : List Char}
    (h : l₁.dropWhile p ≠ []) :
    (l₁ ++ l₂).dropWhile p = l₁.dropWhile p ++ l₂ := by
  rw [List.dropWhile_append, if_neg]
  simp only [List.isEmpty_iff]
  exact h

theorem dropWhile_ws_ne_nil_of_last {x : List Char} (hne : x ≠ [])
    (hlast : ∀ c, x.getLast? = some c → pySpace c = false) :
    x.dropWhile pySpace ≠ [] := by
  intro he
  have hall : ∀ c ∈ x, pySpace c = true := List.dropWhile_eq_nil_iff.mp he
  cases hl : x.getLast? with
  | none => exact hne (List.getLast?_eq_none_iff.mp hl)
  | some c =>
    have := hall c (List.mem_of_getLast?_eq_some hl)
    rw [hlast c hl] at this
    cases this

theorem getLast?_dropWhile_of_ne {p : Char → Bool} {x : List Char}
    (h : x.dropWhile p ≠ []) : (x.dropWhile p).getLast? = x.getLast? :=
  (getLast?_of_suffix (List.dropWhile_suffix p) h).symm

theorem takeWhile_eq_self_of_length {p : Char → Bool} {m : List Char}
    (h : (m.takeWhile p).length = m.length) : m.takeWhile p = m :=
  (List.takeWhile_prefix p).sublist.eq_of_length h

theorem isUnitWord_lowers_false_of_ws {x : List Char} {c : Char} (hc : c ∈ x)
    (hw : pySpace c = true) : isUnitWord (lowers x) = false := by
  cases hu : isUnitWord (lowers x)
  · rfl
  · have := ws_free_of_lowers_unit (isUnitWord_mem hu) rfl c hc
    rw [hw] at this
    cases this

theorem isNumUnit_ws_invariant {m W1 W2 B : List Char}
    (hmlast : ∀ c, m.getLast? = some c → pySpace c = false)
    (hW1 : W1 ≠ []) (hW1w : ∀ c ∈ W1, pySpace c = true)
    (hW2 : W2 ≠ []) (hW2w : ∀ c ∈ W2, pySpace c = true)
    (hB : ∀ c, B.head? = some c → pySpace c = false) :
    isNumUnit (m ++ (W1 ++ B)) = isNumUnit (m ++ (W2 ++ B)) := by
  have key : ∀ W, W ≠ [] → (∀ c ∈ W, pySpace c = true) →
      isNumUnit (m ++ (W ++ B)) =
        if (m.takeWhile numChar).length = m.length then
          !m.isEmpty && isUnitWord (lowers B)
        else false := by
    intro W hW hWw
    by_cases hall : (m.takeWhile numChar).length = m.length
    · rw [if_pos hall]
      have hmall : m.takeWhile numChar = m := takeWhile_eq_self_of_length hall
      have hnum : ∀ c ∈ m, numChar c = true := by
        intro c hc
        rw [← hmall] at hc
        exact List.mem_takeWhile_imp hc
      unfold isNumUnit
      have h1 : (m ++ (W ++ B)).takeWhile numChar = m := by
        rw [List.takeWhile_append_of_pos hnum]
        cases W with
        | nil => exact absurd rfl hW
        | cons a t =>
          rw [List.cons_append, List.takeWhile_cons, if_neg, List.append_nil]
          intro ha
          have := pySpace_eq_false_of_numChar ha
          rw [hWw a (List.mem_cons_self a t)] at this
          cases this
      rw [h1]
      simp only []
      rw [List.drop_left' rfl]
      have h2 : (W ++ B).dropWhile pySpace = B := by
        rw [List.dropWhile_append_of_pos hWw]
        exact lstrip_eq_self hB
      rw [h2]
    · rw [if_neg hall]
      have hlt : (m.takeWhile numChar).length < m.length := by
        have := (List.takeWhile_prefix (l := m) numChar).sublist.length_le
        omega
      unfold isNumUnit
      have h1 : (m ++ (W ++ B)).takeWhile numChar = m.takeWhile numChar := by
        rw [List.takeWhile_append, if_neg hall]
      rw [h1]
      simp only []
      have h2 : (m ++ (W ++ B)).drop (m.takeWhile numChar).length =
          m.drop (m.takeWhile numChar).length ++ (W ++ B) :=
        drop_append_left (by omega)
      rw [h2]
      have hmd : m.drop (m.takeWhile numChar).length ≠ [] := drop_ne_nil hlt
      have hmdlast : ∀ c, (m.drop (m.takeWhile numChar).length).getLast? = some c →
          pySpace c = false := by
        intro c hc
        apply hmlast
        rw [getLast?_of_suffix (List.drop_suffix _ _) hmd]
        exact hc
      have hmdw : (m.drop (m.takeWhile numChar).length).dropWhile pySpace ≠ [] :=
        dropWhile_ws_ne_nil_of_last hmd hmdlast
      rw [dropWhile_append_of_ne hmdw]
      have hwc : ∃ c ∈ W, pySpace c = true := by
        cases W with
        | nil => exact absurd rfl hW
        | cons a t => exact ⟨a, List.mem_cons_self a t, hWw a (List.mem_cons_self a t)⟩
      obtain ⟨cw, hcw, hcww⟩ := hwc
      rw [isUnitWord_lowers_false_of_ws
        (List.mem_append_right _ (List.mem_append_left _ hcw)) hcww]
      simp
  rw [key W1 hW1 hW1w, key W2 hW2 hW2w]

theorem isSpecialQ_false_of_ws {x : List Char} {c : Char} (hc : c ∈ x)
    (hw : pySpace c = true) : isSpecialQ x = false := by
  cases hu : isSpecialQ x
  · rfl
  · exfalso
    have hmem : lowers x ∈ specialVariants := by
      unfold isSpecialQ at hu
      exact List.elem_iff.mp hu
    have hin : lowerC c ∈ lowers x := List.mem_map_of_mem _ hc
    rw [lowerC_of_pySpace hw] at hin
    have := specialVariants_ws_free (lowers x) hmem c hin
    rw [hw] at this
    cases this

theorem isSpecialQ_props {l : List Char} (h : isSpecialQ l = true) :
    l ≠ [] ∧ ∀ c ∈ l, pySpace c = false := by
  refine ⟨isSpecialQ_ne_nil h, fun c hc => ?_⟩
  cases hw : pySpace c
  · rfl
  · rw [isSpecialQ_false_of_ws hc hw] at h
    cases h

theorem isNumUnit_eq_false_of_special {B : List Char} (h : isSpecialQ B = true) :
    isNumUnit B = false := by
  obtain ⟨hne, -⟩ := isSpecialQ_props h
  cases B with
  | nil => exact absurd rfl hne
  | cons a t =>
    have hmem : lowers (a :: t) ∈ specialVariants := by
      unfold isSpecialQ at h
      exact List.elem_iff.mp h
    have hhead := specialVariants_head_not_num (lowers (a :: t)) hmem
    have hna : numChar a = false := by
      cases hn : numChar a
      · rfl
      · exfalso
        rw [show lowers (a :: t) = lowerC a :: lowers t from rfl] at hhead
        rw [lowerC_of_numChar hn] at hhead
        simp only [List.head?_cons, Option.all_some, Bool.not_eq_true'] at hhead
        rw [hn] at hhead
        cases hhead
    unfold isNumUnit
    rw [List.takeWhile_cons, if_neg (by simp [hna])]
    rfl


theorem head?_take {t : List Char} {i : Nat} (hi : 0 < i) :
    (t.take i).head? = t.head? := by
  cases t with
  | nil => simp
  | cons a s =>
    cases i with
    | zero => omega
    | succ n => rfl

theorem lt_length_of_headIsWs {t : List Char} {i : Nat}
    (h : headIsWs (t.drop i) = true) : i < t.length := by
  by_contra hge
  rw [List.drop_eq_nil_of_le (by omega)] at h
  cases h

theorem takeWhile_ws_ne_nil_of_head {x : List Char} (h : headIsWs x = true) :
    x.takeWhile pySpace ≠ [] := by
  cases x with
  | nil => cases h
  | cons a s =>
    have ha : pySpace a = true := h
    rw [List.takeWhile_cons, if_pos ha]
    simp

theorem okSplitAt_false_of_ge {o : List Char → Bool} {t : List Char} {j : Nat}
    (h : t.length ≤ j) : okSplitAt o t j = false := by
  unfold okSplitAt
  rw [List.drop_eq_nil_of_le h]
  show (_ && headIsWs [] && _) = false
  rw [show headIsWs [] = false from rfl]
  simp

theorem okSplitAt_false_of_ok {o : List Char → Bool} {t : List Char} {j : Nat}
    (h : o (wsTail t j) = false) : okSplitAt o t j = false := by
  unfold okSplitAt
  rw [h]
  simp

theorem okSplitAt_false_of_ws {o : List Char → Bool} {t : List Char} {j : Nat}
    (h : headIsWs (t.drop j) = false) : okSplitAt o t j = false := by
  unfold okSplitAt
  rw [h]
  simp

theorem firstIdx_none_forall {p : Nat → Bool} {s n : Nat}
    (h : firstIdx p s n = none) : ∀ j, s ≤ j → j < s + n → p j = false := by
  induction n generalizing s with
  | zero => omega
  | succ n ih =>
    rw [firstIdx] at h
    by_cases hp : p s = true
    · rw [if_pos hp] at h
      cases h
    · rw [if_neg hp] at h
      intro j h1 h2
      by_cases hj : j = s
      · subst hj
        exact Bool.eq_false_iff.mpr hp
      · exact ih h j (by omega) (by omega)

theorem match_end_none_forall {t : List Char} (h : match_end t = none) :
    ∀ j, okSplitAt isNumUnit t j = false := by
  intro j
  by_cases hj : j < t.length
  · unfold match_end at h
    cases hf : firstIdx (okSplitAt isNumUnit t) 0 t.length with
    | some i => rw [hf] at h; cases h
    | none => exact firstIdx_none_forall hf j (Nat.zero_le j) (by omega)
  · exact okSplitAt_false_of_ge (by omega)

theorem min_split_strip {o : List Char → Bool} {t : List Char} {i : Nat}
    (hstr : pyStrip t = t) (hok : okSplitAt o t i = true)
    (hmin : ∀ j, j < i → okSplitAt o t j = false) :
    pyStrip (t.take i) = t.take i := by
  obtain ⟨hi, hnl, hws, hoktail⟩ := okSplitAt_true hok
  have hilen : i < t.length := lt_length_of_headIsWs hws
  apply pyStrip_eq_self
  · intro c hc
    rw [head?_take hi] at hc
    rw [← hstr] at hc
    exact pyStrip_head_not hc
  · intro c hc
    cases hwc : pySpace c
    · rfl
    · exfalso
      obtain ⟨ys, hys⟩ := List.getLast?_eq_some_iff.mp hc
      have hyslen : ys.length = i - 1 := by
        have hcl := congrArg List.length hys
        rw [List.length_take, List.length_append, List.length_singleton] at hcl
        omega
      by_cases hione : i = 1
      · subst hione
        have h0 : ys = [] := by
          cases ys with
          | nil => rfl
          | cons a s => simp at hyslen
        subst h0
        rw [List.nil_append] at hys
        have hh : (t.take 1).head? = some c := by
          rw [hys]
          rfl
        rw [head?_take (by omega), ← hstr] at hh
        rw [pyStrip_head_not hh] at hwc
        cases hwc
      · have hteq : t = ys ++ (c :: t.drop i) := by
          conv_lhs => rw [← List.take_append_drop i t, hys]
          rw [List.append_assoc]
          rfl
        have hdrop : t.drop (i - 1) = c :: t.drop i := by
          conv_lhs => rw [hteq]
          exact List.drop_left' hyslen
        have hcand : okSplitAt o t (i - 1) = true := by
          apply okSplitAt_intro
          · omega
          · have hsub : t.take (i - 1) = (t.take i).take (i - 1) := by
              rw [List.take_take, Nat.min_def, if_pos (by omega)]
            rw [hsub, contains_false_iff]
            intro hmem
            rw [contains_false_iff] at hnl
            exact hnl (List.take_subset _ _ hmem)
          · rw [hdrop]
            exact hwc
          · unfold wsTail
            rw [hdrop, List.dropWhile_cons, if_pos hwc]
            exact hoktail
        rw [hmin (i - 1) (by omega)] at hcand
        cases hcand

theorem tryBranch_none_of {q q' n : List Char} (h : tryBranch q n = none) :
    tryBranch q' n = none := by
  unfold tryBranch at h ⊢
  by_cases hc : n ≠ [] ∧ 2 < n.length
  · rw [if_pos hc] at h
    cases h
  · rw [if_neg hc]


theorem okSplitAt_corr {o : List Char → Bool} {A W B : List Char} {j : Nat}
    (hj : j < A.length)
    (hAlast : ∀ c, A.getLast? = some c → pySpace c = false)
    (hok : ∀ m, m ≠ [] → (∀ c, m.getLast? = some c → pySpace c = false) →
      o (m ++ (W ++ B)) = o (m ++ (' ' :: B))) :
    okSplitAt o (A ++ (W ++ B)) j = okSplitAt o (A ++ (' ' :: B)) j := by
  have hAd : A.drop j ≠ [] := drop_ne_nil hj
  have hAdlast : ∀ c, (A.drop j).getLast? = some c → pySpace c = false := by
    intro c hc
    apply hAlast
    rw [getLast?_of_suffix (List.drop_suffix j A) hAd]
    exact hc
  have hm : (A.drop j).dropWhile pySpace ≠ [] :=
    dropWhile_ws_ne_nil_of_last hAd hAdlast
  have hmlast : ∀ c, ((A.drop j).dropWhile pySpace).getLast? = some c →
      pySpace c = false := by
    intro c hc
    rw [getLast?_dropWhile_of_ne hm] at hc
    exact hAdlast c hc
  unfold okSplitAt wsTail
  rw [take_append_left (Nat.le_of_lt hj), take_append_left (Nat.le_of_lt hj),
    drop_append_left (Nat.le_of_lt hj), drop_append_left (Nat.le_of_lt hj),
    headIsWs_append_left hAd, headIsWs_append_left hAd,
    dropWhile_append_of_ne hm, dropWhile_append_of_ne hm,
    hok _ hm hmlast]

theorem okSplit_false_in_tail {o : List Char → Bool} {A W B : List Char} {j : Nat}
    (hWws : ∀ c ∈ W, pySpace c = true)
    (hB : ∀ c ∈ B, pySpace c = false)
    (hnum : o B = false)
    (hj : A.length ≤ j) :
    okSplitAt o (A ++ (W ++ B)) j = false := by
  by_cases hjl : (A ++ (W ++ B)).length ≤ j
  · exact okSplitAt_false_of_ge hjl
  · rw [List.length_append, List.length_append] at hjl
    by_cases hjw : j ≤ A.length + W.length
    · apply okSplitAt_false_of_ok
      have harg : wsTail (A ++ (W ++ B)) j = B := by
        unfold wsTail
        rw [List.drop_append_eq_append_drop, List.drop_eq_nil_of_le hj,
          List.nil_append,
          drop_append_left (by omega : j - A.length ≤ W.length),
          List.dropWhile_append_of_pos
            (fun c hc => hWws c (List.drop_subset _ _ hc))]
        apply lstrip_eq_self
        intro c hc
        obtain ⟨ys, hy⟩ := List.head?_eq_some_iff.mp hc
        apply hB
        rw [hy]
        exact List.mem_cons_self c ys
      rw [harg]
      exact hnum
    · apply okSplitAt_false_of_ws
      have hdropt : (A ++ (W ++ B)).drop j = B.drop (j - A.length - W.length) := by
        rw [List.drop_append_eq_append_drop, List.drop_eq_nil_of_le hj,
          List.nil_append, List.drop_append_eq_append_drop,
          List.drop_eq_nil_of_le (by omega : W.length ≤ j - A.length),
          List.nil_append]
      rw [hdropt]
      cases hd : B.drop (j - A.length - W.length) with
      | nil => rfl
      | cons a s =>
        show pySpace a = false
        apply hB
        apply List.drop_subset (j - A.length - W.length) B
        rw [hd]
        exact List.mem_cons_self a s

theorem isSpecialQ_corr {m W B : List Char} (hW : W ≠ [])
    (hWws : ∀ c ∈ W, pySpace c = true) :
    isSpecialQ (m ++ (W ++ B)) = isSpecialQ (m ++ (' ' :: B)) := by
  obtain ⟨cw, hcw, hcww⟩ : ∃ c ∈ W, pySpace c = true := by
    cases W with
    | nil => exact absurd rfl hW
    | cons a t => exact ⟨a, List.mem_cons_self a t, hWws a (List.mem_cons_self a t)⟩
  rw [isSpecialQ_false_of_ws
      (List.mem_append_right m (List.mem_append_left B hcw)) hcww,
    isSpecialQ_false_of_ws
      (List.mem_append_right m (List.mem_cons_self ' ' B)) (by decide)]


theorem dropWhile_ws_eq_self {l : List Char}
    (h : ∀ c, l.head? = some c → pySpace c = false) :
    l.dropWhile pySpace = l :=
  lstrip_eq_self h

theorem reconstruct_match {o : List Char → Bool} {t : List Char} {i : Nat}
    (hstr : pyStrip t = t)
    (hok : okSplitAt o t i = true)
    (hmin : ∀ j, j < i → okSplitAt o t j = false)
    (hokinv : ∀ m, m ≠ [] → (∀ c, m.getLast? = some c → pySpace c = false) →
      o (m ++ ((t.drop i).takeWhile pySpace ++ wsTail t i)) =
        o (m ++ (' ' :: wsTail t i))) :
    (∀ j, j < i →
      okSplitAt o (t.take i ++ ' ' :: wsTail t i) j = okSplitAt o t j) ∧
    okSplitAt o (t.take i ++ ' ' :: wsTail t i) i = true ∧
    (t.take i ++ ' ' :: wsTail t i).take i = t.take i ∧
    wsTail (t.take i ++ ' ' :: wsTail t i) i = wsTail t i := by
  obtain ⟨hi, hnl, hws, hoktail⟩ := okSplitAt_true hok
  have hilen : i < t.length := lt_length_of_headIsWs hws
  have hAlen : (t.take i).length = i := by
    rw [List.length_take, Nat.min_def, if_pos (by omega)]
  have hAstr : pyStrip (t.take i) = t.take i := min_split_strip hstr hok hmin
  have hAlast : ∀ c, (t.take i).getLast? = some c → pySpace c = false := by
    intro c hc
    rw [← hAstr] at hc
    exact pyStrip_getLast_not hc
  have hBhead : ∀ c, (wsTail t i).head? = some c → pySpace c = false :=
    fun c hc => wsTail_head_not hc
  have hdecT : t = t.take i ++ ((t.drop i).takeWhile pySpace ++ wsTail t i) :=
    split_decomp t i
  have htake : (t.take i ++ ' ' :: wsTail t i).take i = t.take i := by
    rw [take_append_left (by omega), List.take_of_length_le (by omega)]
  have hwst : wsTail (t.take i ++ ' ' :: wsTail t i) i = wsTail t i := by
    unfold wsTail
    rw [drop_append_left (by omega), List.drop_eq_nil_of_le (by omega),
      List.nil_append, List.dropWhile_cons, if_pos (by decide)]
    exact dropWhile_ws_eq_self hBhead
  refine ⟨?_, ?_, htake, hwst⟩
  · intro j hj
    have hcorr := okSplitAt_corr (o := o)
      (A := t.take i) (W := (t.drop i).takeWhile pySpace) (B := wsTail t i)
      (j := j) (by omega) hAlast hokinv
    rw [← hcorr]
    congr 1
    exact hdecT.symm
  · apply okSplitAt_intro
    · exact hi
    · rw [htake]
      exact hnl
    · rw [drop_append_left (by omega), List.drop_eq_nil_of_le (by omega),
        List.nil_append]
      rfl
    · rw [hwst]
      exact hoktail


theorem cons_eq_singleton_append {a : Char} {l : List Char} :
    a :: l = [a] ++ l := rfl

theorem endResult_reconstruct {t : List Char} {r : ParsedIngredient}
    (hstr : pyStrip t = t) (h : endResult t = some r) :
    endResult (r.name.data ++ ' ' :: r.quantity.data) = some r ∧
    r.name.data ++ ' ' :: r.quantity.data ≠ [] ∧
    pyStrip (r.name.data ++ ' ' :: r.quantity.data) =
      r.name.data ++ ' ' :: r.quantity.data := by
  rcases endResult_cases h with hb | ⟨hbn, hb⟩
  · -- matched by the numeric quantity-at-end pattern
    obtain ⟨g1, g2, hm, hr, hg1ne, hg1len⟩ := branchEnd_some hb
    obtain ⟨i, hg, hilen, hok, hmin⟩ := match_end_some hm
    injection hg with hge1 hge2
    subst hge1 hge2
    obtain ⟨hi0, hnl, hws, hoktail⟩ := okSplitAt_true hok
    have hBne : wsTail t i ≠ [] := isNumUnit_ne_nil hoktail
    have hAstr := min_split_strip hstr hok hmin
    have hBsuf : wsTail t i <:+ t :=
      (List.dropWhile_suffix pySpace).trans (List.drop_suffix i t)
    have hBlast : ∀ c, (wsTail t i).getLast? = some c → pySpace c = false := by
      intro c hc
      rw [← getLast?_of_suffix hBsuf hBne, ← hstr] at hc
      exact pyStrip_getLast_not hc
    have hBstr : pyStrip (wsTail t i) = wsTail t i :=
      pyStrip_eq_self (fun c hc => wsTail_head_not hc) hBlast
    have hrname : r.name.data = t.take i := by
      rw [hr]
      simp only [data_mk]
      exact hAstr
    have hrq : r.quantity.data = wsTail t i := by
      rw [hr]
      simp only [data_mk]
      exact hBstr
    rw [hrname, hrq]
    have hAne : t.take i ≠ [] := by
      intro he
      have h0 := congrArg List.length he
      rw [List.length_take, Nat.min_def, if_pos (Nat.le_of_lt hilen)] at h0
      simp at h0
      omega
    have hinv : ∀ m, m ≠ [] → (∀ c, m.getLast? = some c → pySpace c = false) →
        isNumUnit (m ++ ((t.drop i).takeWhile pySpace ++ wsTail t i)) =
          isNumUnit (m ++ (' ' :: wsTail t i)) := by
      intro m hmne hml
      rw [cons_eq_singleton_append]
      exact isNumUnit_ws_invariant hml (takeWhile_ws_ne_nil_of_head hws)
        (fun c hc => List.mem_takeWhile_imp hc) (by simp)
        (fun c hc => by rcases List.mem_singleton.mp hc with rfl; decide)
        (fun c hc => wsTail_head_not hc)
    obtain ⟨hcorr, hoki, htake, hwst⟩ := reconstruct_match hstr hok hmin hinv
    have hfi : firstIdx (okSplitAt isNumUnit (t.take i ++ ' ' :: wsTail t i)) 0
        (t.take i ++ ' ' :: wsTail t i).length = some i := by
      apply firstIdx_intro hoki (Nat.zero_le i)
      · have h1 : (t.take i ++ ' ' :: wsTail t i).length =
            (t.take i).length + ((wsTail t i).length + 1) := by
          simp
        have h2 : (t.take i).length = i := by
          rw [List.length_take, Nat.min_def, if_pos (Nat.le_of_lt hilen)]
        omega
      · intro j h1 h2
        rw [hcorr j h2]
        exact hmin j h2
    have hme : match_end (t.take i ++ ' ' :: wsTail t i) =
        some (t.take i, wsTail t i) := by
      unfold match_end
      rw [hfi]
      simp only [Option.map_some']
      rw [htake, hwst]
    refine ⟨?_, ?_, ?_⟩
    · unfold endResult
      rw [hme]
      have hsame : branchEnd (some ((t.take i : List Char), wsTail t i)) = some r := by
        rw [← hm]
        exact hb
      rw [hsame]
    · intro he
      exact hAne (List.append_eq_nil.mp he).1
    · apply pyStrip_eq_self
      · intro c hc
        rw [head?_append_left hAne, head?_take hi0, ← hstr] at hc
        exact pyStrip_head_not hc
      · intro c hc
        rw [getLast?_append_left (List.cons_ne_nil _ _),
          cons_eq_singleton_append, getLast?_append_left hBne] at hc
        exact hBlast c hc
  · -- matched by the special quantity-at-end pattern
    obtain ⟨g1, g2, hm, hr, hg1ne, hg1len⟩ := branchEnd_some hb
    obtain ⟨i, hg, hilen, hok, hmin⟩ := special_end_some hm
    injection hg with hge1 hge2
    subst hge1 hge2
    obtain ⟨hi0, hnl, hws, hoktail⟩ := okSplitAt_true hok
    have hBne : wsTail t i ≠ [] := isSpecialQ_ne_nil hoktail
    have hBfree : ∀ c ∈ wsTail t i, pySpace c = false :=
      (isSpecialQ_props hoktail).2
    have hAstr := min_split_strip hstr hok hmin
    have hBsuf : wsTail t i <:+ t :=
      (List.dropWhile_suffix pySpace).trans (List.drop_suffix i t)
    have hBlast : ∀ c, (wsTail t i).getLast? = some c → pySpace c = false := by
      intro c hc
      rw [← getLast?_of_suffix hBsuf hBne, ← hstr] at hc
      exact pyStrip_getLast_not hc
    have hBstr : pyStrip (wsTail t i) = wsTail t i :=
      pyStrip_eq_self (fun c hc => wsTail_head_not hc) hBlast
    have hrname : r.name.data = t.take i := by
      rw [hr]
      simp only [data_mk]
      exact hAstr
    have hrq : r.quantity.data = wsTail t i := by
      rw [hr]
      simp only [data_mk]
      exact hBstr
    rw [hrname, hrq]
    have hAne : t.take i ≠ [] := by
      intro he
      have h0 := congrArg List.length he
      rw [List.length_take, Nat.min_def, if_pos (Nat.le_of_lt hilen)] at h0
      simp at h0
      omega
    have hAlen : (t.take i).length = i := by
      rw [List.length_take, Nat.min_def, if_pos (Nat.le_of_lt hilen)]
    have hWne : (t.drop i).takeWhile pySpace ≠ [] := takeWhile_ws_ne_nil_of_head hws
    have hWws : ∀ c ∈ (t.drop i).takeWhile pySpace, pySpace c = true :=
      fun c hc => List.mem_takeWhile_imp hc
    have hdecT : t = t.take i ++ ((t.drop i).takeWhile pySpace ++ wsTail t i) :=
      split_decomp t i
    have hnumB : isNumUnit (wsTail t i) = false :=
      isNumUnit_eq_false_of_special hoktail
    have hinvS : ∀ m, m ≠ [] → (∀ c, m.getLast? = some c → pySpace c = false) →
        isSpecialQ (m ++ ((t.drop i).takeWhile pySpace ++ wsTail t i)) =
          isSpecialQ (m ++ (' ' :: wsTail t i)) := by
      intro m hmne hml
      exact isSpecialQ_corr hWne hWws
    obtain ⟨hcorrS, hokiS, htake, hwst⟩ := reconstruct_match hstr hok hmin hinvS
    -- the numeric pattern behaves on the reconstruction as on the original
    have hinvN : ∀ m, m ≠ [] → (∀ c, m.getLast? = some c → pySpace c = false) →
        isNumUnit (m ++ ((t.drop i).takeWhile pySpace ++ wsTail t i)) =
          isNumUnit (m ++ (' ' :: wsTail t i)) := by
      intro m hmne hml
      rw [cons_eq_singleton_append]
      exact isNumUnit_ws_invariant hml hWne hWws (by simp)
        (fun c hc => by rcases List.mem_singleton.mp hc with rfl; decide)
        (fun c hc => wsTail_head_not hc)
    have hAlast : ∀ c, (t.take i).getLast? = some c → pySpace c = false := by
      intro c hc
      rw [← hAstr] at hc
      exact pyStrip_getLast_not hc
    have hcorrN : ∀ j, j < i →
        okSplitAt isNumUnit (t.take i ++ ' ' :: wsTail t i) j =
          okSplitAt isNumUnit t j := by
      intro j hj
      have hcorr := okSplitAt_corr (o := isNumUnit)
        (A := t.take i) (W := (t.drop i).takeWhile pySpace) (B := wsTail t i)
        (j := j) (by omega) hAlast hinvN
      rw [← hcorr]
      congr 1
      exact hdecT.symm
    -- okSplit for the numeric pattern is false on the tail of t and of r'
    have htailT : ∀ j, i ≤ j → okSplitAt isNumUnit t j = false := by
      intro j hj
      have := okSplit_false_in_tail (o := isNumUnit)
        (A := t.take i) (W := (t.drop i).takeWhile pySpace) (B := wsTail t i)
        (j := j) hWws hBfree hnumB (by omega)
      rw [← hdecT] at this
      exact this
    have htailR : ∀ j, i ≤ j →
        okSplitAt isNumUnit (t.take i ++ ' ' :: wsTail t i) j = false := by
      intro j hj
      have := okSplit_false_in_tail (o := isNumUnit)
        (A := t.take i) (W := [' ']) (B := wsTail t i) (j := j)
        (fun c hc => by rcases List.mem_singleton.mp hc with rfl; decide)
        hBfree hnumB (by omega)
      rw [← cons_eq_singleton_append] at this
      exact this
    have hbeN : branchEnd (match_end (t.take i ++ ' ' :: wsTail t i)) = none := by
      cases hme : match_end t with
      | none =>
        have hallT := match_end_none_forall hme
        have hallR : ∀ j, okSplitAt isNumUnit (t.take i ++ ' ' :: wsTail t i) j
            = false := by
          intro j
          by_cases hj : j < i
          · rw [hcorrN j hj]
            exact hallT j
          · exact htailR j (by omega)
        unfold match_end
        rw [firstIdx_none hallR]
        rfl
      | some g =>
        obtain ⟨i', hg', hilen', hok', hmin'⟩ := match_end_some hme
        have hi'lt : i' < i := by
          by_contra hge
          rw [htailT i' (by omega)] at hok'
          cases hok'
        have hokR : okSplitAt isNumUnit (t.take i ++ ' ' :: wsTail t i) i' = true := by
          rw [hcorrN i' hi'lt]
          exact hok'
        have hfiR : firstIdx
            (okSplitAt isNumUnit (t.take i ++ ' ' :: wsTail t i)) 0
            (t.take i ++ ' ' :: wsTail t i).length = some i' := by
          apply firstIdx_intro hokR (Nat.zero_le i')
          · have h1 : (t.take i ++ ' ' :: wsTail t i).length =
                (t.take i).length + ((wsTail t i).length + 1) := by
              simp
            omega
          · intro j h1 h2
            rw [hcorrN j (by omega)]
            exact hmin' j h2
        have hmeR : match_end (t.take i ++ ' ' :: wsTail t i) =
            some ((t.take i ++ ' ' :: wsTail t i).take i', wsTail (t.take i ++ ' ' :: wsTail t i) i') := by
          unfold match_end
          rw [hfiR]
          rfl
        have htakeR : (t.take i ++ ' ' :: wsTail t i).take i' = t.take i' := by
          rw [take_append_left (by omega), List.take_take, Nat.min_def,
            if_pos (by omega)]
        -- t's guard failed; the name group is the same, so it fails again
        have hbt : tryBranch (pyStrip (wsTail t i')) (pyStrip (t.take i')) = none := by
          have : branchEnd (match_end t) = none := hbn
          rw [hme] at this
          rw [hg'] at this
          exact this
        rw [hmeR]
        show tryBranch (pyStrip (wsTail (t.take i ++ ' ' :: wsTail t i) i'))
          (pyStrip ((t.take i ++ ' ' :: wsTail t i).take i')) = none
        rw [htakeR]
        exact tryBranch_none_of hbt
    have hfiS : firstIdx (okSplitAt isSpecialQ (t.take i ++ ' ' :: wsTail t i)) 0
        (t.take i ++ ' ' :: wsTail t i).length = some i := by
      apply firstIdx_intro hokiS (Nat.zero_le i)
      · have h1 : (t.take i ++ ' ' :: wsTail t i).length =
            (t.take i).length + ((wsTail t i).length + 1) := by
          simp
        omega
      · intro j h1 h2
        rw [hcorrS j h2]
        exact hmin j h2
    have hseR : special_end (t.take i ++ ' ' :: wsTail t i) =
        some (t.take i, wsTail t i) := by
      unfold special_end
      rw [hfiS]
      simp only [Option.map_some']
      rw [htake, hwst]
    refine ⟨?_, ?_, ?_⟩
    · unfold endResult
      rw [hbeN, hseR]
      have hsame : branchEnd (some ((t.take i : List Char), wsTail t i)) = some r := by
        rw [← hm]
        exact hb
      exact hsame
    · intro he
      exact hAne (List.append_eq_nil.mp he).1
    · apply pyStrip_eq_self
      · intro c hc
        rw [head?_append_left hAne, head?_take hi0, ← hstr] at hc
        exact pyStrip_head_not hc
      · intro c hc
        rw [getLast?_append_left (List.cons_ne_nil _ _),
          cons_eq_singleton_append, getLast?_append_left hBne] at hc
        exact hBlast c hc


/-- Claim C8 (amended): for every string input matched by one of the two
end-anchored patterns (quantity at the end), re-parsing the reconstruction
"<name> <quantity>" returns exactly the same split.  For start-anchored
matches the reconstruction can re-parse differently, because consumed
separators such as the connective "di" are not reproduced (see the
counterexample theorem). -/
theorem c8_end_idempotence :
    ∀ s : String, ∀ r, endResult (pyStrip s.data) = some r →
      parse_ingredient (.vStr s) = r ∧
      parse_ingredient (.vStr (r.name ++ " " ++ r.quantity)) = r := by
  intro s r h
  have hstr : pyStrip (pyStrip s.data) = pyStrip s.data := pyStrip_idem _
  have ht_ne : pyStrip s.data ≠ [] := by
    intro he
    rw [he] at h
    have h0 : endResult ([] : List Char) = none := rfl
    rw [h0] at h
    cases h
  have hs_ne : s ≠ "" := by
    intro he
    subst he
    exact ht_ne (by decide)
  obtain ⟨hend, hne, hstr2⟩ := endResult_reconstruct hstr h
  constructor
  · rw [parse_ingredient_str hs_ne ht_ne]
    unfold parseIngredientText
    rw [h]
  · have hdata : (r.name ++ " " ++ r.quantity).data =
        r.name.data ++ ' ' :: r.quantity.data := by
      rw [String.data_append, String.data_append]
      have h1 : (" " : String).data = [' '] := rfl
      rw [h1, List.append_assoc]
      rfl
    have htne : pyStrip (r.name ++ " " ++ r.quantity).data ≠ [] := by
      rw [hdata, hstr2]
      exact hne
    have hsne : (r.name ++ " " ++ r.quantity) ≠ "" := by
      intro he
      apply hne
      rw [← hdata, he]
    rw [parse_ingredient_str hsne htne, hdata, hstr2]
    unfold parseIngredientText
    rw [hend]

/-- Claim C8, witness: "flour 200 g" is matched by the quantity-at-end
pattern and its reconstruction "flour 200 g" re-parses to the same split. -/
theorem c8_witness :
    parse_ingredient (.vStr "flour 200 g") = ⟨"200 g", "flour"⟩ ∧
    parse_ingredient (.vStr ("flour" ++ " " ++ "200 g")) = ⟨"200 g", "flour"⟩ :=
  c8_end_idempotence "flour 200 g" ⟨"200 g", "flour"⟩ (by decide)

end RecipeScraper
